import Mathlib

/-!
Verification of the ETL pipeline in `src/etl_pipeline.py`.

The transform engine (`clean_transform`) and the aggregation engine
(`compute_kpis`) are embedded shallowly:

* a raw table cell is either a value that `pd.to_numeric` parses to a
  (finite) number, modelled exactly by a rational, or a cell that coerces
  to NaN (missing or unparsable);
* a pandas column of floats that may hold NaN is modelled as
  `Option ℚ` per record, `none` playing the role of NaN;
* the vectorized dataframe operations are re-expressed as per-record and
  per-group folds over explicit lists, preserving order of operations;
* the generation timestamp (wall clock) is outside the embedding;
* the standard deviation of the overall statistics involves a square
  root, which is not rational; the embedding carries its square
  (the ddof=1 sample variance), which determines it.

Records are parametrized by the list `cols` of platform-price column
names (the columns whose name contains "MRP", excluding "MRP Old" and
"Final MRP Old"); each record's `prices` list is aligned with `cols`.
-/

namespace Etl

/-- A raw table cell: `num q` is a cell that `pd.to_numeric` maps to the
number `q`; `nan` is a missing or unparsable cell (coerced to NaN). -/
inductive Cell where
  | num (q : ℚ)
  | nan
deriving DecidableEq, Inhabited

/-- Embeds `pd.to_numeric(value, errors='coerce')` followed by the
NaN/value distinction: a parsable cell yields its value, anything else
yields absent. -/
def coerceCell : Cell → Option ℚ
  | .num q => some q
  | .nan => none

/-- The whitespace characters stripped by Python's `str.strip()`
(for the ASCII range relevant to this data). -/
def isPySpace (c : Char) : Bool :=
  c = ' ' || c = '\t' || c = '\n' || c = '\r' || c = '\x0b' || c = '\x0c'

/-- Embeds Python `str.strip()`: drop leading and trailing whitespace. -/
def pyStrip (s : String) : String :=
  String.mk (((s.toList.dropWhile isPySpace).reverse.dropWhile isPySpace).reverse)

/-- The character class `[SMXL\d]` of the size pattern in
`extract_size_from_sku` (line 30 of the source). -/
def isSizeChar (c : Char) : Bool :=
  c = 'S' || c = 'M' || c = 'X' || c = 'L' || c.isDigit

/-- Does a token match the group `[SMXL\d]+XL?` of the size pattern,
with the match required to span the whole token?  Equivalently: all
characters are in the class, and the token is some nonempty class string
followed by a literal `X` and an optional `L` — so, read from the back:
it ends in `X` with at least one character before it, or ends in `XL`
with at least one character before the `X`. -/
def sizeTokenMatch (t : List Char) : Bool :=
  t.all isSizeChar &&
    (match t.reverse with
     | a :: b :: rest =>
       (a == 'X') || ((a == 'L') && (b == 'X') && !rest.isEmpty)
     | _ => false)

/-- Scan for the leftmost underscore whose remainder (which runs to the
end of the string, as forced by the `$` anchor) matches the size token
pattern; this is the group returned by `re.search(r'_([SMXL\d]+XL?)$', s)`. -/
def extractFromChars : List Char → Option (List Char)
  | [] => none
  | c :: rest =>
    if c = '_' && sizeTokenMatch rest then some rest else extractFromChars rest

/-- Embeds `extract_size_from_sku` (source lines 25-34): `none` models a
null or non-string SKU cell, for which the function returns `None`. -/
def extract_size_from_sku : Option String → Option String
  | none => none
  | some s => (extractFromChars s.toList).map fun t => String.mk t

/-- One raw CSV row.  String-valued columns are `Option String` (`none`
models a null cell); `Weight`, `TP` and the platform-price columns are
raw cells, coerced inside the transform.  `prices` is aligned with the
platform-column list `cols`. -/
structure RawRecord where
  sku : Option String
  styleId : Option String
  catalog : Option String
  category : Option String
  weight : Cell
  tp : Cell
  prices : List Cell
deriving DecidableEq, Inhabited

/-- A row after the coercion steps of `clean_transform` (source lines
50-59) and before filtering and metric computation. -/
structure PreRecord where
  sku : Option String
  styleId : Option String
  catalog : Option String
  category : Option String
  size : Option String
  weight : ℚ
  tp : Option ℚ
  prices : List (Option ℚ)
deriving DecidableEq, Inhabited

/-- Source lines 50-59: extract `Size` from `Sku`, coerce `Weight` with
`fillna(0)`, coerce `TP` and every platform-price column. -/
def toPre (r : RawRecord) : PreRecord where
  sku := r.sku
  styleId := r.styleId
  catalog := r.catalog
  category := r.category
  size := extract_size_from_sku r.sku
  weight := (coerceCell r.weight).getD 0
  tp := coerceCell r.tp
  prices := r.prices.map coerceCell

/-- Source lines 68-71: `.str.strip()` on `Catalog` and `Category`
(a null cell stays null). -/
def stripText (r : PreRecord) : PreRecord :=
  { r with catalog := r.catalog.map pyStrip, category := r.category.map pyStrip }

/-- The values of a float column (or row slice) that are not NaN. -/
def presentVals (ps : List (Option ℚ)) : List ℚ :=
  ps.filterMap id

/-- Embeds `np.nanmin` over a row (and pandas `Series.min`): minimum of
the present values, NaN (absent) if there are none. -/
def nanListMin (ps : List (Option ℚ)) : Option ℚ :=
  match presentVals ps with
  | [] => none
  | v :: vs => some (vs.foldl min v)

/-- Embeds `np.nanmax` over a row (and pandas `Series.max`). -/
def nanListMax (ps : List (Option ℚ)) : Option ℚ :=
  match presentVals ps with
  | [] => none
  | v :: vs => some (vs.foldl max v)

/-- Embeds `np.nanmean` over a row (and pandas `Series.mean`): mean of
the present values, NaN (absent) if there are none. -/
def nanListMean (ps : List (Option ℚ)) : Option ℚ :=
  match presentVals ps with
  | [] => none
  | v :: vs => some ((v :: vs).sum / ((v :: vs).length : ℚ))

/-- Embeds Python `col.replace(' MRP', '')`: remove every occurrence of
the substring `" MRP"`, scanning left to right. -/
def removeMRPAll : List Char → List Char
  | ' ' :: 'M' :: 'R' :: 'P' :: rest => removeMRPAll rest
  | c :: rest => c :: removeMRPAll rest
  | [] => []

/-- Embeds `.replace(' ', '_')` (single-character replacement). -/
def underscoreSpaces (l : List Char) : List Char :=
  l.map fun c => if c = ' ' then '_' else c

/-- Source line 87: platform-name normalization
`col.replace(' MRP', '').lower().replace(' ', '_')` (ASCII lowercase,
as in the data's column names). -/
def normPlatform (c : String) : String :=
  String.mk (underscoreSpaces ((removeMRPAll c.toList).map Char.toLower))

/-- Source line 84: the dictionary
`{col: row[col] for col in platform_cols if pd.notna(row[col])}` as the
ordered list of (column, present value) pairs. -/
def presentPairs (cols : List String) (ps : List (Option ℚ)) : List (String × ℚ) :=
  (cols.zip ps).filterMap fun cp => cp.2.map fun v => (cp.1, v)

/-- The fold of Python's `min(..., key=lambda x: x[1])` over a nonempty
list: keep the earlier item on ties, replace only on a strictly smaller
key. -/
def pyMinFold (x : String × ℚ) (xs : List (String × ℚ)) : String × ℚ :=
  xs.foldl (fun best y => if y.2 < best.2 then y else best) x

/-- Source line 86: `min(prices.items(), key=lambda x: x[1])`. -/
def cheapestPair (cols : List String) (ps : List (Option ℚ)) : Option (String × ℚ) :=
  match presentPairs cols ps with
  | [] => none
  | x :: xs => some (pyMinFold x xs)

/-- A cleaned record: the raw fields post-coercion plus the derived
price metrics of source lines 74-93. -/
structure CleanedRecord where
  sku : Option String
  styleId : Option String
  catalog : Option String
  category : Option String
  size : Option String
  weight : ℚ
  tp : Option ℚ
  prices : List (Option ℚ)
  min_price : Option ℚ
  max_price : Option ℚ
  avg_price : Option ℚ
  price_range : Option ℚ
  cheapest_platform : Option String
  cheapest_price : Option ℚ
deriving DecidableEq, Inhabited

/-- Source lines 74-93: per-record price metrics (`price_range` is the
columnwise difference `max_price - min_price`, NaN if either is NaN) and
the cheapest platform. -/
def addMetrics (cols : List String) (r : PreRecord) : CleanedRecord where
  sku := r.sku
  styleId := r.styleId
  catalog := r.catalog
  category := r.category
  size := r.size
  weight := r.weight
  tp := r.tp
  prices := r.prices
  min_price := nanListMin r.prices
  max_price := nanListMax r.prices
  avg_price := nanListMean r.prices
  price_range :=
    match nanListMax r.prices, nanListMin r.prices with
    | some a, some b => some (a - b)
    | _, _ => none
  cheapest_platform := (cheapestPair cols r.prices).map fun p => normPlatform p.1
  cheapest_price := nanListMin r.prices

/-- First-occurrence deduplication by a key, with an accumulator of the
key values already seen. -/
def dedupByKeyAux {α κ : Type} [DecidableEq κ] (key : α → κ) :
    List κ → List α → List α
  | _, [] => []
  | seen, a :: rest =>
    if key a ∈ seen then dedupByKeyAux key seen rest
    else a :: dedupByKeyAux key (key a :: seen) rest

/-- Keep the first occurrence of each key value, in original order;
embeds `drop_duplicates(subset=[k], keep='first')` (pandas treats NaN
keys as equal to each other, as does equality on `Option`). -/
def dedupByKey {α κ : Type} [DecidableEq κ] (key : α → κ) (l : List α) : List α :=
  dedupByKeyAux key [] l

/-- The TP validity filter of source line 65: `df_clean['TP'] > 0` is
false for NaN, so a record passes exactly when TP is present and positive. -/
def tpPos (t : Option ℚ) : Bool :=
  match t with
  | some q => decide (0 < q)
  | none => false

/-- The `clean_transform` pipeline of source lines 50-93, before the
final deduplication: coercion, the two row filters (all platform prices
missing; invalid TP), text standardization, and price metrics. -/
def cleanNoDedup (cols : List String) (rows : List RawRecord) : List CleanedRecord :=
  ((((rows.map toPre).filter
      (fun r => r.prices.any Option.isSome)).filter
      (fun r => tpPos r.tp)).map stripText).map (addMetrics cols)

/-- Embeds `clean_transform` (source lines 37-101): the cleaning
pipeline followed by `drop_duplicates(subset=['Sku'], keep='first')`
(source line 96). -/
def clean_transform (cols : List String) (rows : List RawRecord) : List CleanedRecord :=
  dedupByKey (fun r => r.sku) (cleanNoDedup cols rows)

/-- Source lines 56 and 111: the platform-price columns are those whose
name contains the substring "MRP", except the two excluded names. -/
def hasMRP : List Char → Bool
  | 'M' :: 'R' :: 'P' :: _ => true
  | _ :: rest => hasMRP rest
  | [] => false

/-- Selection of platform columns from the full column list. -/
def platformColsOf (allCols : List String) : List String :=
  allCols.filter fun c =>
    hasMRP c.toList && c ≠ "MRP Old" && c ≠ "Final MRP Old"

/-- Round-half-to-even to an integer, the rounding used by
`numpy.round` (exact on the rational model; binary floats can differ
only at representation boundaries, which no claim touches). -/
def roundHalfEven (q : ℚ) : ℤ :=
  let n : ℤ := ⌊q⌋
  let r : ℚ := q - n
  if r < 1 / 2 then n
  else if 1 / 2 < r then n + 1
  else if 2 ∣ n then n else n + 1

/-- Embeds `.round(2)` on a float column. -/
def round2 (q : ℚ) : ℚ :=
  (roundHalfEven (q * 100) : ℚ) / 100

/-- Embeds pandas `Series.mean` on an already-present list of values:
NaN (absent) on an empty list. -/
def listMean (l : List ℚ) : Option ℚ :=
  if l.length = 0 then none else some (l.sum / (l.length : ℚ))

/-- Embeds pandas `Series.median`: midpoint of the sorted values
(the middle element for odd length, the mean of the two middle elements
for even length), NaN (absent) on an empty list. -/
def pandasMedian (l : List ℚ) : Option ℚ :=
  if (List.insertionSort (· ≤ ·) l).length = 0 then none
  else if (List.insertionSort (· ≤ ·) l).length % 2 = 1 then
    (List.insertionSort (· ≤ ·) l).get? ((List.insertionSort (· ≤ ·) l).length / 2)
  else
    match (List.insertionSort (· ≤ ·) l).get? ((List.insertionSort (· ≤ ·) l).length / 2 - 1),
        (List.insertionSort (· ≤ ·) l).get? ((List.insertionSort (· ≤ ·) l).length / 2) with
    | some a, some b => some ((a + b) / 2)
    | _, _ => none

/-- The square of pandas `Series.std` (ddof = 1 sample deviation):
the sum of squared deviations from the mean divided by `n - 1`,
NaN (absent) when fewer than two values are present. -/
def listStdSq (l : List ℚ) : Option ℚ :=
  if l.length < 2 then none
  else
    match listMean l with
    | some m => some ((l.map fun v => (v - m) ^ 2).sum / ((l.length - 1 : ℕ) : ℚ))
    | none => none

/-- Embeds `Series.nunique()`: number of distinct non-null values. -/
def nuniqueOptStr (l : List (Option String)) : ℕ :=
  (dedupByKey id (l.filterMap id)).length

/-- The `price_statistics` block of `overall_stats` (source lines
120-126), with the standard deviation carried as its square. -/
structure PriceStats where
  min_price : Option ℚ
  max_price : Option ℚ
  avg_price : Option ℚ
  median_price : Option ℚ
  std_price_sq : Option ℚ
deriving DecidableEq

/-- The `overall_stats` block (source lines 114-127). -/
structure OverallStats where
  total_products : ℕ
  total_skus : ℕ
  total_styles : ℕ
  total_catalogs : ℕ
  total_categories : ℕ
  price_statistics : PriceStats
deriving DecidableEq

/-- Source lines 114-127: counts and the price statistics.  Per the
source, the minimum is taken over the per-record `min_price` column, the
maximum over `max_price`, and mean/median/std over `avg_price` (pandas
reductions skip NaN). -/
def overallStats (rs : List CleanedRecord) : OverallStats where
  total_products := rs.length
  total_skus := nuniqueOptStr (rs.map fun r => r.sku)
  total_styles := nuniqueOptStr (rs.map fun r => r.styleId)
  total_catalogs := nuniqueOptStr (rs.map fun r => r.catalog)
  total_categories := nuniqueOptStr (rs.map fun r => r.category)
  price_statistics :=
    { min_price := nanListMin (rs.map fun r => r.min_price)
      max_price := nanListMax (rs.map fun r => r.max_price)
      avg_price := listMean (rs.filterMap fun r => r.avg_price)
      median_price := pandasMedian (rs.filterMap fun r => r.avg_price)
      std_price_sq := listStdSq (rs.filterMap fun r => r.avg_price) }

/-- One row of `category_kpi` (source lines 130-136): min/max/mean/count
of the per-record `min_price` within the category group, plus distinct
SKU and style counts.  Float aggregates are rounded to 2 decimals; the
count column stays an integer (pandas `round` leaves it unchanged).
Pandas counts the non-NaN `min_price` entries of the group. -/
structure CategoryRow where
  category : String
  min_price : Option ℚ
  max_price : Option ℚ
  avg_price : Option ℚ
  product_count : ℕ
  unique_skus : ℕ
  unique_styles : ℕ
deriving DecidableEq

/-- Source lines 130-136.  Pandas `groupby` drops null keys and sorts
the group keys. -/
def categoryKpi (rs : List CleanedRecord) : List CategoryRow :=
  let keys := List.insertionSort (· ≤ ·)
    (dedupByKey id (rs.filterMap fun r => r.category))
  keys.map fun k =>
    let g := rs.filter fun r => decide (r.category = some k)
    { category := k
      min_price := (nanListMin (g.map fun r => r.min_price)).map round2
      max_price := (nanListMax (g.map fun r => r.min_price)).map round2
      avg_price := (nanListMean (g.map fun r => r.min_price)).map round2
      product_count := (g.filter fun r => (r.min_price).isSome).length
      unique_skus := nuniqueOptStr (g.map fun r => r.sku)
      unique_styles := nuniqueOptStr (g.map fun r => r.styleId) }

/-- One row of `catalog_kpi` (source lines 139-145). -/
structure CatalogRow where
  catalog : String
  min_price : Option ℚ
  max_price : Option ℚ
  avg_price : Option ℚ
  product_count : ℕ
  unique_skus : ℕ
  unique_categories : ℕ
deriving DecidableEq

/-- Source lines 139-145, the catalog analogue of `categoryKpi`. -/
def catalogKpi (rs : List CleanedRecord) : List CatalogRow :=
  let keys := List.insertionSort (· ≤ ·)
    (dedupByKey id (rs.filterMap fun r => r.catalog))
  keys.map fun k =>
    let g := rs.filter fun r => decide (r.catalog = some k)
    { catalog := k
      min_price := (nanListMin (g.map fun r => r.min_price)).map round2
      max_price := (nanListMax (g.map fun r => r.min_price)).map round2
      avg_price := (nanListMean (g.map fun r => r.min_price)).map round2
      product_count := (g.filter fun r => (r.min_price).isSome).length
      unique_skus := nuniqueOptStr (g.map fun r => r.sku)
      unique_categories := nuniqueOptStr (g.map fun r => r.category) }

/-- One entry of `platform_stats` (source lines 148-160). -/
structure PlatformStat where
  platform : String
  products_available : ℕ
  min_price : Option ℚ
  max_price : Option ℚ
  avg_price : Option ℚ
  median_price : Option ℚ
  coverage_pct : ℚ
deriving DecidableEq

/-- Source lines 148-160: per platform column with at least one present
value, statistics of the present values and the coverage percentage. -/
def platformStats (cols : List String) (rs : List CleanedRecord) : List PlatformStat :=
  cols.enum.filterMap fun ic =>
    let vals := rs.filterMap fun r => (r.prices.get? ic.1).bind id
    if vals.length = 0 then none
    else some
      { platform := normPlatform ic.2
        products_available := vals.length
        min_price := nanListMin (vals.map some)
        max_price := nanListMax (vals.map some)
        avg_price := listMean vals
        median_price := pandasMedian vals
        coverage_pct := (vals.length : ℚ) / (rs.length : ℚ) * 100 }

/-- Descending-count order used by pandas `value_counts()`. -/
def countDesc (a b : String × ℕ) : Prop :=
  b.2 ≤ a.2

instance : DecidableRel countDesc :=
  fun a b => inferInstanceAs (Decidable (b.2 ≤ a.2))

instance : IsTotal (String × ℕ) countDesc :=
  ⟨fun a b => le_total b.2 a.2⟩

instance : IsTrans (String × ℕ) countDesc :=
  ⟨fun _ _ _ h1 h2 => le_trans h2 h1⟩

/-- Embeds `value_counts().to_dict()` (source line 163): the count of
each distinct non-null value, sorted by descending count. -/
def valueCounts (l : List String) : List (String × ℕ) :=
  List.insertionSort countDesc
    ((dedupByKey id l).map fun k => (k, (l.filter fun x => decide (x = k)).length))

/-- The `price_variation_kpi` block (source lines 166-171);
`NaN > 0` and `NaN == 0` are false, and mean/max skip NaN. -/
structure PriceVariationKpi where
  products_with_variation : ℕ
  products_uniform_price : ℕ
  avg_price_range : Option ℚ
  max_price_range : Option ℚ
deriving DecidableEq

/-- Source lines 166-171. -/
def priceVariationKpi (rs : List CleanedRecord) : PriceVariationKpi where
  products_with_variation :=
    (rs.filter fun r =>
      match r.price_range with
      | some q => decide (0 < q)
      | none => false).length
  products_uniform_price :=
    (rs.filter fun r =>
      match r.price_range with
      | some q => decide (q = 0)
      | none => false).length
  avg_price_range := listMean (rs.filterMap fun r => r.price_range)
  max_price_range := nanListMax (rs.map fun r => r.price_range)

/-- The projection of a record in `top_variation_products`
(source lines 174-176). -/
structure TopProduct where
  sku : Option String
  styleId : Option String
  catalog : Option String
  category : Option String
  min_price : Option ℚ
  max_price : Option ℚ
  price_range : Option ℚ
  cheapest_platform : Option String
deriving DecidableEq

/-- Field projection of source line 175. -/
def projTop (r : CleanedRecord) : TopProduct where
  sku := r.sku
  styleId := r.styleId
  catalog := r.catalog
  category := r.category
  min_price := r.min_price
  max_price := r.max_price
  price_range := r.price_range
  cheapest_platform := r.cheapest_platform

/-- Sort key of a position-tagged record in the `nlargest` ordering. -/
def prKey (p : ℕ × CleanedRecord) : ℚ :=
  (p.2.price_range).getD 0

/-- The ordering realized by `nlargest(.., 'price_range')` with the
default `keep='first'`: descending by `price_range`, ties broken by
original position. -/
def nlRel (a b : ℕ × CleanedRecord) : Prop :=
  prKey b < prKey a ∨ (prKey a = prKey b ∧ a.1 ≤ b.1)

instance : DecidableRel nlRel :=
  fun a b =>
    inferInstanceAs (Decidable (prKey b < prKey a ∨ (prKey a = prKey b ∧ a.1 ≤ b.1)))

instance : IsTotal (ℕ × CleanedRecord) nlRel where
  total a b := by
    rcases lt_trichotomy (prKey a) (prKey b) with h | h | h
    · exact Or.inr (Or.inl h)
    · rcases Nat.le_total a.1 b.1 with h2 | h2
      · exact Or.inl (Or.inr ⟨h, h2⟩)
      · exact Or.inr (Or.inr ⟨h.symm, h2⟩)
    · exact Or.inl (Or.inl h)

instance : IsTrans (ℕ × CleanedRecord) nlRel where
  trans a b c h1 h2 := by
    rcases h1 with h1 | ⟨h1e, h1i⟩
    · rcases h2 with h2 | ⟨h2e, _⟩
      · exact Or.inl (lt_trans h2 h1)
      · exact Or.inl (h2e ▸ h1)
    · rcases h2 with h2 | ⟨h2e, h2i⟩
      · exact Or.inl (h1e ▸ h2)
      · exact Or.inr ⟨h1e.trans h2e, le_trans h1i h2i⟩

/-- Embeds `df.nlargest(20, 'price_range')` (source line 174): rows with
NaN in the ranking column are excluded, the rest are stably ordered by
descending `price_range` (original order on ties) and the first 20 are
kept, tagged with their original positions. -/
def nlargestSel (rs : List CleanedRecord) : List (ℕ × CleanedRecord) :=
  (List.insertionSort nlRel
    (rs.enum.filter fun p => (p.2.price_range).isSome)).take 20

/-- Source lines 174-176: the top-variation records projected to the
fixed field subset. -/
def top_variation_products (rs : List CleanedRecord) : List TopProduct :=
  (nlargestSel rs).map fun p => projTop p.2

/-- One row of `size_kpi` (source lines 179-185): `product_count` is the
pandas count of non-null `Sku` within the group (an integer column,
unchanged by `round(2)`), the two price aggregates are NaN-skipping
means rounded to 2 decimals. -/
structure SizeRow where
  size : String
  product_count : ℕ
  avg_min_price : Option ℚ
  avg_max_price : Option ℚ
deriving DecidableEq

/-- The group keys of `groupby('Size')`: pandas drops records whose
`Size` is null and sorts the keys. -/
def sizeKeys (rs : List CleanedRecord) : List String :=
  List.insertionSort (· ≤ ·) (dedupByKey id (rs.filterMap fun r => r.size))

/-- One aggregated row of `size_kpi` for the size value `k`. -/
def sizeRowOf (rs : List CleanedRecord) (k : String) : SizeRow where
  size := k
  product_count :=
    ((rs.filter fun r => decide (r.size = some k)).filter
      fun r => (r.sku).isSome).length
  avg_min_price :=
    (nanListMean ((rs.filter fun r => decide (r.size = some k)).map
      fun r => r.min_price)).map round2
  avg_max_price :=
    (nanListMean ((rs.filter fun r => decide (r.size = some k)).map
      fun r => r.max_price)).map round2

/-- Source lines 179-185. -/
def sizeKpi (rs : List CleanedRecord) : List SizeRow :=
  (sizeKeys rs).map (sizeRowOf rs)

/-- The KPI document (source lines 187-197), without the wall-clock
timestamp. -/
structure KpiDoc where
  overall_stats : OverallStats
  category_kpi : List CategoryRow
  catalog_kpi : List CatalogRow
  platform_stats : List PlatformStat
  cheapest_platform_kpi : List (String × ℕ)
  price_variation_kpi : PriceVariationKpi
  top_variation_products : List TopProduct
  size_kpi : List SizeRow
deriving DecidableEq

/-- Embeds `compute_kpis` (source lines 104-197). -/
def compute_kpis (cols : List String) (rs : List CleanedRecord) : KpiDoc where
  overall_stats := overallStats rs
  category_kpi := categoryKpi rs
  catalog_kpi := catalogKpi rs
  platform_stats := platformStats cols rs
  cheapest_platform_kpi := valueCounts (rs.filterMap fun r => r.cheapest_platform)
  price_variation_kpi := priceVariationKpi rs
  top_variation_products := top_variation_products rs
  size_kpi := sizeKpi rs

/-- Platform columns of the concrete example table (the scenario of the
spec, section 8). -/
def wcols : List String :=
  ["A MRP", "B MRP"]

/-- Example record 1: both platform prices present, valid TP, a SKU with
an extractable size, catalog with surrounding whitespace. -/
def wrow1 : RawRecord where
  sku := some "P1_2XL"
  styleId := some "St1"
  catalog := some " Cat A "
  category := some "Men"
  weight := .num 1
  tp := .num 50
  prices := [.num 100, .num 120]

/-- Example record 2: one platform price absent, unparsable weight,
no size token in the SKU. -/
def wrow2 : RawRecord where
  sku := some "P2"
  styleId := some "St2"
  catalog := some "CatB"
  category := some "Men"
  weight := .nan
  tp := .num 40
  prices := [.nan, .num 80]

/-- Example record 3: all platform prices absent (dropped by cleaning). -/
def wrow3 : RawRecord where
  sku := some "P3"
  styleId := some "St3"
  catalog := some "CatC"
  category := some "Women"
  weight := .num 2
  tp := .num 30
  prices := [.nan, .nan]

/-- The example table. -/
def wrows : List RawRecord :=
  [wrow1, wrow2, wrow3]

/-- A raw record holding a negative platform price that `pd.to_numeric`
coerces successfully (for instance a cell containing `-10`). -/
def negRow : RawRecord where
  sku := some "N1"
  styleId := some "St"
  catalog := some "C"
  category := some "G"
  weight := .nan
  tp := .num 5
  prices := [.num (-10)]

/-- A platform column whose name contains `" MRP"` twice; the source's
`replace(' MRP', '')` removes both occurrences. -/
def doubleCol : List String :=
  ["A MRP B MRP"]

/-- A record for the `doubleCol` table. -/
def doubleRow : RawRecord where
  sku := some "D1"
  styleId := some "St"
  catalog := some "C"
  category := some "G"
  weight := .num 1
  tp := .num 9
  prices := [.num 7]

/-- The size-token pattern as the claim words it: a token consisting of
digits and the letters S/M/X/L, "ending in an optional XL suffix" — the
suffix being optional, any nonempty string over the class qualifies. -/
def sizeTokenClaimed (t : List Char) : Prop :=
  t ≠ [] ∧ ∀ c ∈ t, isSizeChar c = true

/-- The size-token pattern the code actually implements: one or more
characters of the class `[SMXL\d]`, then a mandatory `X`, then an
optional `L`. -/
def sizeTokenAmended (t : List Char) : Prop :=
  ∃ u, u ≠ [] ∧ (∀ c ∈ u, isSizeChar c = true) ∧
    (t = u ++ ['X'] ∨ t = u ++ ['X', 'L'])

/-- Platform-name normalization as the claim words it: strip an `" MRP"`
SUFFIX (only a trailing occurrence), then lowercase, then replace spaces
with underscores. -/
def stripSuffixMRP (l : List Char) : List Char :=
  match l.reverse with
  | 'P' :: 'R' :: 'M' :: ' ' :: rest => rest.reverse
  | _ => l

/-- The claim-side normalization, to compare with `normPlatform`. -/
def normPlatformClaim (c : String) : String :=
  String.mk (underscoreSpaces ((stripSuffixMRP c.toList).map Char.toLower))

/-- A string with no leading and no trailing Python whitespace. -/
def strippedB (s : String) : Bool :=
  (s.toList.head?.all fun c => !isPySpace c) &&
    (s.toList.getLast?.all fun c => !isPySpace c)

/- ### Helper lemmas about folds, strip, and the pipeline -/

theorem foldlMin_mem (v : ℚ) (vs : List ℚ) : vs.foldl min v ∈ v :: vs := by
  induction vs generalizing v with
  | nil => simp
  | cons w ws ih =>
    simp only [List.foldl_cons]
    rcases List.mem_cons.mp (ih (min v w)) with h | h
    · rcases min_choice v w with he | he
      · rw [h, he]
        exact List.mem_cons_self _ _
      · rw [h, he]
        exact List.mem_cons_of_mem _ (List.mem_cons_self _ _)
    · exact List.mem_cons_of_mem _ (List.mem_cons_of_mem _ h)

theorem foldlMin_le (v : ℚ) (vs : List ℚ) : ∀ x ∈ v :: vs, vs.foldl min v ≤ x := by
  induction vs generalizing v with
  | nil =>
    intro x hx
    rw [List.mem_singleton] at hx
    simp [hx]
  | cons w ws ih =>
    intro x hx
    simp only [List.foldl_cons]
    have hle : ws.foldl min (min v w) ≤ min v w :=
      ih (min v w) _ (List.mem_cons_self _ _)
    rcases List.mem_cons.mp hx with rfl | hx2
    · exact le_trans hle (min_le_left _ _)
    · rcases List.mem_cons.mp hx2 with rfl | hx3
      · exact le_trans hle (min_le_right _ _)
      · exact ih (min v w) x (List.mem_cons_of_mem _ hx3)

theorem foldlMax_mem (v : ℚ) (vs : List ℚ) : vs.foldl max v ∈ v :: vs := by
  induction vs generalizing v with
  | nil => simp
  | cons w ws ih =>
    simp only [List.foldl_cons]
    rcases List.mem_cons.mp (ih (max v w)) with h | h
    · rcases max_choice v w with he | he
      · rw [h, he]
        exact List.mem_cons_self _ _
      · rw [h, he]
        exact List.mem_cons_of_mem _ (List.mem_cons_self _ _)
    · exact List.mem_cons_of_mem _ (List.mem_cons_of_mem _ h)

theorem le_foldlMax (v : ℚ) (vs : List ℚ) : ∀ x ∈ v :: vs, x ≤ vs.foldl max v := by
  induction vs generalizing v with
  | nil =>
    intro x hx
    rw [List.mem_singleton] at hx
    simp [hx]
  | cons w ws ih =>
    intro x hx
    simp only [List.foldl_cons]
    have hle : max v w ≤ ws.foldl max (max v w) :=
      ih (max v w) _ (List.mem_cons_self _ _)
    rcases List.mem_cons.mp hx with rfl | hx2
    · exact le_trans (le_max_left _ _) hle
    · rcases List.mem_cons.mp hx2 with rfl | hx3
      · exact le_trans (le_max_right _ _) hle
      · exact ih (max v w) x (List.mem_cons_of_mem _ hx3)

theorem sum_le_len_mul {l : List ℚ} {M : ℚ} (h : ∀ x ∈ l, x ≤ M) :
    l.sum ≤ (l.length : ℚ) * M := by
  induction l with
  | nil => simp
  | cons x xs ih =>
    have hx := h x (List.mem_cons_self _ _)
    have hxs := ih fun y hy => h y (List.mem_cons_of_mem _ hy)
    simp only [List.sum_cons, List.length_cons]
    push_cast
    nlinarith [hx, hxs]

theorem len_mul_le_sum {l : List ℚ} {m : ℚ} (h : ∀ x ∈ l, m ≤ x) :
    (l.length : ℚ) * m ≤ l.sum := by
  induction l with
  | nil => simp
  | cons x xs ih =>
    have hx := h x (List.mem_cons_self _ _)
    have hxs := ih fun y hy => h y (List.mem_cons_of_mem _ hy)
    simp only [List.sum_cons, List.length_cons]
    push_cast
    nlinarith [hx, hxs]

theorem any_isSome_iff_presentVals {ps : List (Option ℚ)} :
    ps.any Option.isSome = true ↔ presentVals ps ≠ [] := by
  induction ps with
  | nil => simp [presentVals]
  | cons p pt ih =>
    cases p with
    | none => simpa [presentVals, List.filterMap_cons] using ih
    | some q => simp [presentVals, List.filterMap_cons]

theorem nanListMin_spec {ps : List (Option ℚ)} {m : ℚ} (h : nanListMin ps = some m) :
    m ∈ presentVals ps ∧ ∀ x ∈ presentVals ps, m ≤ x := by
  unfold nanListMin at h
  rcases hv : presentVals ps with _ | ⟨v, vs⟩
  · rw [hv] at h
    exact absurd h (by simp)
  · rw [hv] at h
    rw [Option.some.injEq] at h
    rw [← h]
    exact ⟨foldlMin_mem v vs, foldlMin_le v vs⟩

theorem nanListMax_spec {ps : List (Option ℚ)} {m : ℚ} (h : nanListMax ps = some m) :
    m ∈ presentVals ps ∧ ∀ x ∈ presentVals ps, x ≤ m := by
  unfold nanListMax at h
  rcases hv : presentVals ps with _ | ⟨v, vs⟩
  · rw [hv] at h
    exact absurd h (by simp)
  · rw [hv] at h
    rw [Option.some.injEq] at h
    rw [← h]
    exact ⟨foldlMax_mem v vs, le_foldlMax v vs⟩

theorem nanListMin_isSome {ps : List (Option ℚ)} (h : presentVals ps ≠ []) :
    ∃ m, nanListMin ps = some m := by
  unfold nanListMin
  rcases hv : presentVals ps with _ | ⟨v, vs⟩
  · exact absurd hv h
  · exact ⟨vs.foldl min v, rfl⟩

theorem nanListMax_isSome {ps : List (Option ℚ)} (h : presentVals ps ≠ []) :
    ∃ m, nanListMax ps = some m := by
  unfold nanListMax
  rcases hv : presentVals ps with _ | ⟨v, vs⟩
  · exact absurd hv h
  · exact ⟨vs.foldl max v, rfl⟩

theorem nanListMean_spec {ps : List (Option ℚ)} {a : ℚ} (h : nanListMean ps = some a) :
    a * ((presentVals ps).length : ℚ) = (presentVals ps).sum ∧ presentVals ps ≠ [] := by
  unfold nanListMean at h
  rcases hv : presentVals ps with _ | ⟨v, vs⟩
  · rw [hv] at h
    exact absurd h (by simp)
  · rw [hv] at h
    rw [Option.some.injEq] at h
    constructor
    · rw [← h]
      have hlen : (((v :: vs).length : ℕ) : ℚ) ≠ 0 := by
        rw [List.length_cons]
        push_cast
        positivity
      field_simp
    · simp [hv]

theorem nanListMean_isSome {ps : List (Option ℚ)} (h : presentVals ps ≠ []) :
    ∃ a, nanListMean ps = some a := by
  unfold nanListMean
  rcases hv : presentVals ps with _ | ⟨v, vs⟩
  · exact absurd hv h
  · exact ⟨_, rfl⟩

theorem head?_dropWhile {p : Char → Bool} {m : List Char} {c : Char}
    (h : (m.dropWhile p).head? = some c) : p c = false := by
  induction m with
  | nil => simp at h
  | cons a rest ih =>
    by_cases hp : p a
    · rw [List.dropWhile_cons_of_pos hp] at h
      exact ih h
    · rw [List.dropWhile_cons_of_neg hp] at h
      rw [List.head?_cons, Option.some.injEq] at h
      subst h
      simp only [Bool.not_eq_true] at hp
      exact hp

theorem getLast?_dropWhile {p : Char → Bool} {m : List Char}
    (h : m.dropWhile p ≠ []) : (m.dropWhile p).getLast? = m.getLast? := by
  induction m with
  | nil => simp at h
  | cons a rest ih =>
    by_cases hp : p a
    · rw [List.dropWhile_cons_of_pos hp] at h ⊢
      rcases hrest : rest with _ | ⟨b, bs⟩
      · rw [hrest] at h; simp at h
      · rw [← hrest, ih (hrest ▸ h)]
        rw [hrest, List.getLast?_cons_cons]
    · rw [List.dropWhile_cons_of_neg hp]

theorem strippedB_pyStrip (s : String) : strippedB (pyStrip s) = true := by
  unfold strippedB pyStrip
  set l := s.toList with hl
  set m := (l.dropWhile isPySpace).reverse with hm
  set l2 := m.dropWhile isPySpace with hl2
  have htl : (String.mk l2.reverse).toList = l2.reverse := rfl
  rw [htl]
  apply Bool.and_eq_true_iff.mpr
  constructor
  · rcases hh : l2.reverse.head? with _ | ⟨c⟩
    · simp
    · rw [List.head?_reverse] at hh
      have h2 : l2 ≠ [] := by
        intro hnil
        rw [hnil] at hh
        simp at hh
      rw [hl2, getLast?_dropWhile (hl2 ▸ h2), hm, List.getLast?_reverse] at hh
      have := head?_dropWhile hh
      simp [this]
  · rcases hh : l2.reverse.getLast? with _ | ⟨c⟩
    · simp
    · rw [List.getLast?_reverse] at hh
      have := head?_dropWhile (hl2 ▸ hh)
      simp [this]

theorem mem_of_mem_dedupByKeyAux {α κ : Type} [DecidableEq κ] {key : α → κ}
    {l : List α} : ∀ {seen : List κ} {x : α}, x ∈ dedupByKeyAux key seen l → x ∈ l := by
  induction l with
  | nil => intro seen x h; exact absurd h (by simp [dedupByKeyAux])
  | cons a rest ih =>
    intro seen x h
    unfold dedupByKeyAux at h
    by_cases hs : key a ∈ seen
    · rw [if_pos hs] at h
      exact List.mem_cons_of_mem _ (ih h)
    · rw [if_neg hs] at h
      rcases List.mem_cons.mp h with rfl | h2
      · exact List.mem_cons_self _ _
      · exact List.mem_cons_of_mem _ (ih h2)

theorem dedupByKeyAux_filter {α κ : Type} [DecidableEq κ] (key : α → κ) (c : κ) :
    ∀ (l : List α) (seen : List κ),
      (dedupByKeyAux key seen l).filter (fun x => decide (key x = c)) =
        if c ∈ seen then [] else (l.filter fun x => decide (key x = c)).take 1 := by
  intro l
  induction l with
  | nil =>
    intro seen
    unfold dedupByKeyAux
    by_cases hc : c ∈ seen <;> simp [hc]
  | cons a rest ih =>
    intro seen
    unfold dedupByKeyAux
    by_cases hs : key a ∈ seen
    · rw [if_pos hs, ih seen]
      by_cases hc : key a = c
      · subst hc
        simp [hs, List.filter_cons, hs]
      · by_cases hcs : c ∈ seen
        · simp [hcs]
        · simp [hcs, List.filter_cons, hc]
    · rw [if_neg hs]
      by_cases hc : key a = c
      · subst hc
        have hcs : ¬ key a ∈ seen := hs
        rw [List.filter_cons_of_pos (by simp), ih (key a :: seen)]
        simp [hcs, List.filter_cons]
      · rw [List.filter_cons_of_neg (by simp [hc]), ih (key a :: seen)]
        by_cases hcs : c ∈ seen
        · rw [if_pos (List.mem_cons_of_mem _ hcs), if_pos hcs]
        · have h1 : c ∉ key a :: seen := by
            rw [List.mem_cons]
            rintro (h | h)
            · exact hc h.symm
            · exact hcs h
          rw [if_neg h1, if_neg hcs, List.filter_cons_of_neg (by simp [hc])]

theorem dedupByKeyAux_keys {α κ : Type} [DecidableEq κ] {key : α → κ} :
    ∀ (l : List α) (seen : List κ),
      ((dedupByKeyAux key seen l).map key).Nodup ∧
        ∀ k ∈ (dedupByKeyAux key seen l).map key, k ∉ seen := by
  intro l
  induction l with
  | nil => intro seen; simp [dedupByKeyAux]
  | cons a rest ih =>
    intro seen
    unfold dedupByKeyAux
    by_cases hs : key a ∈ seen
    · rw [if_pos hs]
      exact ih seen
    · rw [if_neg hs]
      have h2 := ih (key a :: seen)
      refine ⟨?_, ?_⟩
      · rw [List.map_cons, List.nodup_cons]
        refine ⟨fun hmem => ?_, h2.1⟩
        exact (h2.2 _ hmem) (List.mem_cons_self _ _)
      · intro k hk
        rw [List.map_cons, List.mem_cons] at hk
        rcases hk with rfl | hk
        · exact hs
        · exact fun hkseen => (h2.2 _ hk) (List.mem_cons_of_mem _ hkseen)

theorem dedupByKeyAux_cover {α κ : Type} [DecidableEq κ] {key : α → κ} :
    ∀ (l : List α) (seen : List κ) (a : α), a ∈ l → key a ∉ seen →
      ∃ b ∈ dedupByKeyAux key seen l, key b = key a := by
  intro l
  induction l with
  | nil => intro seen a ha; exact absurd ha (by simp)
  | cons x rest ih =>
    intro seen a ha hka
    unfold dedupByKeyAux
    by_cases hs : key x ∈ seen
    · rw [if_pos hs]
      rcases List.mem_cons.mp ha with rfl | h2
      · exact absurd hs hka
      · exact ih seen a h2 hka
    · rw [if_neg hs]
      rcases List.mem_cons.mp ha with rfl | h2
      · exact ⟨a, List.mem_cons_self _ _, rfl⟩
      · by_cases hkx : key a = key x
        · exact ⟨x, List.mem_cons_self _ _, hkx.symm⟩
        · have : key a ∉ key x :: seen := by
            rw [List.mem_cons]
            exact fun h => h.elim hkx hka
          rcases ih (key x :: seen) a h2 this with ⟨b, hb, hkb⟩
          exact ⟨b, List.mem_cons_of_mem _ hb, hkb⟩

theorem mem_of_mem_dedupByKey {α κ : Type} [DecidableEq κ] {key : α → κ}
    {l : List α} {x : α} (h : x ∈ dedupByKey key l) : x ∈ l :=
  mem_of_mem_dedupByKeyAux h

theorem dedupByKey_filter {α κ : Type} [DecidableEq κ] (key : α → κ) (c : κ)
    (l : List α) :
    (dedupByKey key l).filter (fun x => decide (key x = c)) =
      (l.filter fun x => decide (key x = c)).take 1 := by
  unfold dedupByKey
  rw [dedupByKeyAux_filter key c l []]
  simp

theorem dedupByKey_keys_nodup {α κ : Type} [DecidableEq κ] {key : α → κ}
    (l : List α) : ((dedupByKey key l).map key).Nodup :=
  (dedupByKeyAux_keys l []).1

theorem dedupByKey_cover {α κ : Type} [DecidableEq κ] {key : α → κ}
    {l : List α} {a : α} (ha : a ∈ l) : ∃ b ∈ dedupByKey key l, key b = key a :=
  dedupByKeyAux_cover l [] a ha (by simp)

theorem mem_dedupByKey_id {κ : Type} [DecidableEq κ] {l : List κ} {k : κ} :
    k ∈ dedupByKey id l ↔ k ∈ l := by
  constructor
  · exact mem_of_mem_dedupByKey
  · intro h
    rcases @dedupByKey_cover κ κ _ id l k h with ⟨b, hb, hkb⟩
    exact (show b = k from hkb) ▸ hb

theorem dedupByKey_id_nodup {κ : Type} [DecidableEq κ] (l : List κ) :
    (dedupByKey id l).Nodup := by
  have := @dedupByKey_keys_nodup κ κ _ id l
  simpa using this

theorem mem_cleanNoDedup {cols : List String} {rows : List RawRecord}
    {r : CleanedRecord} :
    r ∈ cleanNoDedup cols rows ↔
      ∃ x ∈ rows, (toPre x).prices.any Option.isSome = true ∧
        tpPos (toPre x).tp = true ∧ r = addMetrics cols (stripText (toPre x)) := by
  unfold cleanNoDedup
  constructor
  · intro h
    rcases List.mem_map.mp h with ⟨p, hp, rfl⟩
    rcases List.mem_map.mp hp with ⟨q, hq, rfl⟩
    rcases List.mem_filter.mp hq with ⟨hq1, hq2⟩
    rcases List.mem_filter.mp hq1 with ⟨hq3, hq4⟩
    rcases List.mem_map.mp hq3 with ⟨x, hx, rfl⟩
    exact ⟨x, hx, hq4, hq2, rfl⟩
  · rintro ⟨x, hx, h1, h2, rfl⟩
    apply List.mem_map_of_mem
    apply List.mem_map_of_mem
    rw [List.mem_filter]
    refine ⟨List.mem_filter.mpr ⟨List.mem_map_of_mem _ hx, h1⟩, h2⟩

theorem mem_clean_sub {cols : List String} {rows : List RawRecord}
    {r : CleanedRecord} (h : r ∈ clean_transform cols rows) :
    r ∈ cleanNoDedup cols rows :=
  mem_of_mem_dedupByKey h

/-- Everything a record taken from the cleaning pipeline satisfies. -/
theorem cleanNoDedup_spec {cols : List String} {rows : List RawRecord}
    {r : CleanedRecord} (h : r ∈ cleanNoDedup cols rows) :
    r.min_price = nanListMin r.prices ∧
    r.max_price = nanListMax r.prices ∧
    r.avg_price = nanListMean r.prices ∧
    r.price_range = (match nanListMax r.prices, nanListMin r.prices with
      | some a, some b => some (a - b)
      | _, _ => none) ∧
    r.cheapest_platform = (cheapestPair cols r.prices).map (fun p => normPlatform p.1) ∧
    r.cheapest_price = nanListMin r.prices ∧
    r.prices.any Option.isSome = true ∧
    (∃ t, r.tp = some t ∧ 0 < t) ∧
    (r.size.isSome = true → r.sku.isSome = true) ∧
    (∀ s, r.catalog = some s → strippedB s = true) ∧
    (∀ s, r.category = some s → strippedB s = true) ∧
    (∃ x ∈ rows, r.prices = x.prices.map coerceCell) := by
  rcases mem_cleanNoDedup.mp h with ⟨x, hx, h1, h2, rfl⟩
  have hprices : (addMetrics cols (stripText (toPre x))).prices = x.prices.map coerceCell := rfl
  refine ⟨rfl, rfl, rfl, rfl, rfl, rfl, ?_, ?_, ?_, ?_, ?_, ⟨x, hx, hprices⟩⟩
  · exact h1
  · have htp : (addMetrics cols (stripText (toPre x))).tp = coerceCell x.tp := rfl
    rw [htp]
    unfold tpPos at h2
    have htp2 : (toPre x).tp = coerceCell x.tp := rfl
    rw [htp2] at h2
    rcases hc : coerceCell x.tp with _ | ⟨t⟩
    · rw [hc] at h2
      exact absurd h2 (by simp)
    · rw [hc] at h2
      exact ⟨t, rfl, by simpa using h2⟩
  · have hsize : (addMetrics cols (stripText (toPre x))).size = extract_size_from_sku x.sku := rfl
    have hsku : (addMetrics cols (stripText (toPre x))).sku = x.sku := rfl
    rw [hsize, hsku]
    rcases x.sku with _ | ⟨s⟩
    · simp [extract_size_from_sku]
    · simp
  · intro s hs
    have hcat : (addMetrics cols (stripText (toPre x))).catalog = x.catalog.map pyStrip := rfl
    rw [hcat] at hs
    rcases hx2 : x.catalog with _ | ⟨s0⟩
    · rw [hx2] at hs
      exact absurd hs (by simp)
    · rw [hx2] at hs
      have : s = pyStrip s0 := by simpa using hs.symm
      rw [this]
      exact strippedB_pyStrip s0
  · intro s hs
    have hcat : (addMetrics cols (stripText (toPre x))).category = x.category.map pyStrip := rfl
    rw [hcat] at hs
    rcases hx2 : x.category with _ | ⟨s0⟩
    · rw [hx2] at hs
      exact absurd hs (by simp)
    · rw [hx2] at hs
      have : s = pyStrip s0 := by simpa using hs.symm
      rw [this]
      exact strippedB_pyStrip s0

/-- The same facts for a record of the final cleaned output. -/
theorem clean_spec {cols : List String} {rows : List RawRecord}
    {r : CleanedRecord} (h : r ∈ clean_transform cols rows) :
    r.min_price = nanListMin r.prices ∧
    r.max_price = nanListMax r.prices ∧
    r.avg_price = nanListMean r.prices ∧
    r.price_range = (match nanListMax r.prices, nanListMin r.prices with
      | some a, some b => some (a - b)
      | _, _ => none) ∧
    r.cheapest_platform = (cheapestPair cols r.prices).map (fun p => normPlatform p.1) ∧
    r.cheapest_price = nanListMin r.prices ∧
    r.prices.any Option.isSome = true ∧
    (∃ t, r.tp = some t ∧ 0 < t) ∧
    (r.size.isSome = true → r.sku.isSome = true) ∧
    (∀ s, r.catalog = some s → strippedB s = true) ∧
    (∀ s, r.category = some s → strippedB s = true) ∧
    (∃ x ∈ rows, r.prices = x.prices.map coerceCell) :=
  cleanNoDedup_spec (mem_clean_sub h)

/- ### Claim theorems -/

/-- C1: after `clean_transform`, every cleaned record has TP present and
positive, has at least one platform price present, and has trimmed
`Catalog` and `Category` strings; the cleaned SKUs are pairwise distinct,
and for every SKU value the cleaned output retains exactly the first
record of the pre-deduplication pipeline with that SKU (first occurrence
in original order wins). -/
theorem c1_clean_invariants : ∀ (cols : List String) (rows : List RawRecord),
    (∀ r ∈ clean_transform cols rows,
      (∃ t, r.tp = some t ∧ 0 < t) ∧
      r.prices.any Option.isSome = true ∧
      (∀ s, r.catalog = some s → strippedB s = true) ∧
      (∀ s, r.category = some s → strippedB s = true)) ∧
    ((clean_transform cols rows).map (fun r => r.sku)).Nodup ∧
    (∀ k : Option String,
      (clean_transform cols rows).filter (fun r => decide (r.sku = k)) =
        ((cleanNoDedup cols rows).filter (fun r => decide (r.sku = k))).take 1) := by
  intro cols rows
  refine ⟨?_, ?_, ?_⟩
  · intro r h
    obtain ⟨_, _, _, _, _, _, hany, htp, _, hcat, hcatg, _⟩ := clean_spec h
    exact ⟨htp, hany, hcat, hcatg⟩
  · exact dedupByKey_keys_nodup _
  · intro k
    exact dedupByKey_filter (fun r : CleanedRecord => r.sku) k _

/-- Witness for C1 at the concrete example table: the first cleaned
record has a present, positive TP. -/
theorem c1_clean_invariants_witness :
    ∃ t, (clean_transform wcols wrows).headI.tp = some t ∧ 0 < t :=
  ((c1_clean_invariants wcols wrows).1 (clean_transform wcols wrows).headI
    (of_decide_eq_true (by with_unfolding_all rfl))).1

/-- C2: on every cleaned record the three price metrics are present,
`min_price ≤ avg_price ≤ max_price`, `price_range = max_price - min_price`,
and the three metrics are computed across exactly the present platform
prices of the record (the minimum and maximum are attained among them,
they bound them, and the average times their count is their sum). -/
theorem c2_price_metric_bounds : ∀ (cols : List String) (rows : List RawRecord)
    (r : CleanedRecord), r ∈ clean_transform cols rows →
    ∃ mn mx av, r.min_price = some mn ∧ r.max_price = some mx ∧
      r.avg_price = some av ∧ r.price_range = some (mx - mn) ∧
      mn ≤ av ∧ av ≤ mx ∧
      mn ∈ presentVals r.prices ∧ mx ∈ presentVals r.prices ∧
      (∀ v ∈ presentVals r.prices, mn ≤ v ∧ v ≤ mx) ∧
      av * ((presentVals r.prices).length : ℚ) = (presentVals r.prices).sum := by
  intro cols rows r h
  obtain ⟨hmin, hmax, havg, hrange, _, _, hany, _⟩ := clean_spec h
  have hne : presentVals r.prices ≠ [] := any_isSome_iff_presentVals.mp hany
  obtain ⟨mn, hmn⟩ := nanListMin_isSome hne
  obtain ⟨mx, hmx⟩ := nanListMax_isSome hne
  obtain ⟨av, hav⟩ := nanListMean_isSome hne
  obtain ⟨hmnmem, hmnle⟩ := nanListMin_spec hmn
  obtain ⟨hmxmem, hmxle⟩ := nanListMax_spec hmx
  obtain ⟨havsum, _⟩ := nanListMean_spec hav
  have hlen : (0 : ℚ) < ((presentVals r.prices).length : ℚ) := by
    have h0 : 0 < (presentVals r.prices).length := List.length_pos.mpr hne
    exact_mod_cast h0
  have h1 : ((presentVals r.prices).length : ℚ) * mn ≤ (presentVals r.prices).sum :=
    len_mul_le_sum hmnle
  have h2 : (presentVals r.prices).sum ≤ ((presentVals r.prices).length : ℚ) * mx :=
    sum_le_len_mul hmxle
  rw [← havsum] at h1 h2
  refine ⟨mn, mx, av, hmin.trans hmn, hmax.trans hmx, havg.trans hav, ?_, ?_, ?_,
    hmnmem, hmxmem, fun v hv => ⟨hmnle v hv, hmxle v hv⟩, havsum⟩
  · rw [hrange, hmx, hmn]
  · nlinarith [h1, hlen]
  · nlinarith [h2, hlen]

/-- Witness for C2 at the concrete example table. -/
theorem c2_price_metric_bounds_witness :
    ∃ mn mx av, (clean_transform wcols wrows).headI.min_price = some mn ∧
      (clean_transform wcols wrows).headI.max_price = some mx ∧
      (clean_transform wcols wrows).headI.avg_price = some av ∧
      (clean_transform wcols wrows).headI.price_range = some (mx - mn) ∧
      mn ≤ av ∧ av ≤ mx ∧
      mn ∈ presentVals (clean_transform wcols wrows).headI.prices ∧
      mx ∈ presentVals (clean_transform wcols wrows).headI.prices ∧
      (∀ v ∈ presentVals (clean_transform wcols wrows).headI.prices,
        mn ≤ v ∧ v ≤ mx) ∧
      av * ((presentVals (clean_transform wcols wrows).headI.prices).length : ℚ) =
        (presentVals (clean_transform wcols wrows).headI.prices).sum :=
  c2_price_metric_bounds wcols wrows (clean_transform wcols wrows).headI
    (of_decide_eq_true (by with_unfolding_all rfl))

/-- C3 fails as stated: cleaning applies no sign check, so a coerced
negative platform price survives.  With the single platform column
`"A MRP"` and the raw record `negRow` whose price cell parses to `-10`
(TP = 5), the cleaned output contains a record with the present platform
price `-10 < 0`. -/
theorem c3_nonneg_counterexample :
    ¬ (∀ r ∈ clean_transform ["A MRP"] [negRow], ∀ p ∈ r.prices,
        ∀ q : ℚ, p = some q → 0 ≤ q) := by
  intro h
  have h2 := h (clean_transform ["A MRP"] [negRow]).headI
    (of_decide_eq_true (by with_unfolding_all rfl))
    (some (-10)) (of_decide_eq_true (by with_unfolding_all rfl)) (-10) rfl
  norm_num at h2

/-- C3 amended: every platform price of a cleaned record is exactly the
numeric coercion of the corresponding raw cell — absent when the raw
cell is missing or unparsable, and otherwise the parsed finite rational
value, with no sign restriction applied. -/
theorem c3_prices_coerced : ∀ (cols : List String) (rows : List RawRecord)
    (r : CleanedRecord), r ∈ clean_transform cols rows →
    ∃ x ∈ rows, r.prices = x.prices.map coerceCell ∧
      ∀ i q, r.prices.get? i = some (some q) →
        x.prices.get? i = some (Cell.num q) := by
  intro cols rows r h
  obtain ⟨_, _, _, _, _, _, _, _, _, _, _, x, hx, hpr⟩ := clean_spec h
  refine ⟨x, hx, hpr, ?_⟩
  intro i q hi
  rw [hpr] at hi
  rw [List.get?_eq_getElem?, List.getElem?_map] at hi
  rcases hc : x.prices[i]? with _ | ⟨c⟩
  · rw [hc] at hi
    exact absurd hi (by simp)
  · rw [hc] at hi
    rw [List.get?_eq_getElem?, hc]
    cases c with
    | num q2 =>
      have : q2 = q := by simpa [coerceCell] using hi
      rw [this]
    | nan => exact absurd hi (by simp [coerceCell])

/-- Witness for the amended C3 at the concrete example table. -/
theorem c3_prices_coerced_witness :
    ∃ x ∈ wrows, (clean_transform wcols wrows).headI.prices = x.prices.map coerceCell ∧
      ∀ i q, (clean_transform wcols wrows).headI.prices.get? i = some (some q) →
        x.prices.get? i = some (Cell.num q) :=
  c3_prices_coerced wcols wrows (clean_transform wcols wrows).headI
    (of_decide_eq_true (by with_unfolding_all rfl))

/-- C4 (the code against the claim): on an empty cleaned table,
`compute_kpis` does NOT reject with a fatal error — it evaluates to a
complete KPI document whose overall price statistics are all NaN
(absent), whatever the platform columns are.  This exhibits the code's
behavior at the claim's failing input. -/
theorem c4_empty_no_guard : ∀ cols : List String,
    compute_kpis cols [] =
      { overall_stats :=
          { total_products := 0, total_skus := 0, total_styles := 0,
            total_catalogs := 0, total_categories := 0,
            price_statistics :=
              { min_price := none, max_price := none, avg_price := none,
                median_price := none, std_price_sq := none } }
        category_kpi := []
        catalog_kpi := []
        platform_stats := []
        cheapest_platform_kpi := []
        price_variation_kpi :=
          { products_with_variation := 0, products_uniform_price := 0,
            avg_price_range := none, max_price_range := none }
        top_variation_products := []
        size_kpi := [] } := by
  intro cols
  have hps : platformStats cols [] = [] := by
    unfold platformStats
    apply List.filterMap_eq_nil_iff.mpr
    intro ic _
    rfl
  unfold compute_kpis
  rw [hps]
  rfl

/- ### The size-extraction pattern: characterization lemmas -/

theorem sizeTokenMatch_iff {t : List Char} :
    sizeTokenMatch t = true ↔ sizeTokenAmended t := by
  constructor
  · intro h
    unfold sizeTokenMatch at h
    rw [Bool.and_eq_true] at h
    obtain ⟨hall, hpat⟩ := h
    rcases hrev : t.reverse with _ | ⟨a, _ | ⟨b, rest⟩⟩
    · rw [hrev] at hpat
      exact absurd hpat (by simp)
    · rw [hrev] at hpat
      exact absurd hpat (by simp)
    · rw [hrev] at hpat
      have ht : t = rest.reverse ++ [b] ++ [a] := by
        have := congrArg List.reverse hrev
        rw [List.reverse_reverse] at this
        rw [this]
        simp
      have hclass : ∀ c ∈ t, isSizeChar c = true := by
        intro c hc
        exact List.all_eq_true.mp hall c hc
      simp only [Bool.or_eq_true, Bool.and_eq_true, beq_iff_eq] at hpat
      rcases hpat with rfl | ⟨⟨rfl, rfl⟩, hne⟩
      · refine ⟨rest.reverse ++ [b], by simp, ?_, Or.inl ht⟩
        intro c hc
        apply hclass
        rw [ht]
        exact List.mem_append_left _ hc
      · have hrne : rest.reverse ≠ [] := by
          intro hnil
          rw [List.reverse_eq_nil_iff] at hnil
          rw [hnil] at hne
          simp at hne
        refine ⟨rest.reverse, hrne, ?_, Or.inr (by rw [ht]; simp)⟩
        intro c hc
        apply hclass
        rw [ht, List.append_assoc]
        exact List.mem_append_left _ hc
  · rintro ⟨u, hne, hclass, hcase | hcase⟩
    · subst hcase
      unfold sizeTokenMatch
      rw [Bool.and_eq_true]
      constructor
      · rw [List.all_eq_true]
        intro c hc
        rcases List.mem_append.mp hc with hc | hc
        · exact hclass c hc
        · rw [List.mem_singleton] at hc
          rw [hc]
          rfl
      · rw [List.reverse_append]
        rcases hu : u.reverse with _ | ⟨c, cs⟩
        · rw [List.reverse_eq_nil_iff] at hu
          exact absurd hu hne
        · simp
    · subst hcase
      unfold sizeTokenMatch
      rw [Bool.and_eq_true]
      constructor
      · rw [List.all_eq_true]
        intro c hc
        rcases List.mem_append.mp hc with hc | hc
        · exact hclass c hc
        · rcases List.mem_cons.mp hc with rfl | hc2
          · rfl
          · rw [List.mem_singleton] at hc2
            rw [hc2]
            rfl
      · rw [List.reverse_append]
        have hu2 : u.reverse ≠ [] := fun hnil =>
          hne (List.reverse_eq_nil_iff.mp hnil)
        rcases hu : u.reverse with _ | ⟨c, cs⟩
        · exact absurd hu hu2
        · simp

theorem extractFromChars_sound {l t : List Char}
    (h : extractFromChars l = some t) :
    ∃ p, l = p ++ '_' :: t ∧ sizeTokenMatch t = true := by
  induction l with
  | nil => exact absurd h (by simp [extractFromChars])
  | cons c rest ih =>
    rw [show extractFromChars (c :: rest) =
        if (decide (c = '_') && sizeTokenMatch rest) = true then some rest
        else extractFromChars rest from rfl] at h
    by_cases hc : (decide (c = '_') && sizeTokenMatch rest) = true
    · rw [if_pos hc] at h
      rw [Option.some.injEq] at h
      subst h
      rw [Bool.and_eq_true, decide_eq_true_iff] at hc
      exact ⟨[], by rw [hc.1]; rfl, hc.2⟩
    · rw [if_neg hc] at h
      rcases ih h with ⟨p, rfl, hm⟩
      exact ⟨c :: p, rfl, hm⟩

theorem extractFromChars_complete {l : List Char}
    (h : ∀ p t, l = p ++ '_' :: t → sizeTokenMatch t = false) :
    extractFromChars l = none := by
  induction l with
  | nil => rfl
  | cons c rest ih =>
    rw [show extractFromChars (c :: rest) =
        if (decide (c = '_') && sizeTokenMatch rest) = true then some rest
        else extractFromChars rest from rfl]
    by_cases hc : (decide (c = '_') && sizeTokenMatch rest) = true
    · rw [Bool.and_eq_true, decide_eq_true_iff] at hc
      have := h [] rest (by rw [hc.1]; rfl)
      rw [hc.2] at this
      exact absurd this (by simp)
    · rw [if_neg hc]
      apply ih
      intro p t hrest
      exact h (c :: p) t (by rw [hrest]; rfl)

/-- C5 fails as stated: the SKU `"AB_M"` ends in an underscore followed
by the token `"M"`, which consists of the allowed letters with the
optional `"XL"` suffix absent, yet the code extracts nothing — the
compiled pattern requires a literal `X` before the optional `L`. -/
theorem c5_pattern_counterexample :
    (∃ p, "AB_M".toList = p ++ '_' :: "M".toList ∧ sizeTokenClaimed "M".toList) ∧
      extract_size_from_sku (some "AB_M") = none := by
  refine ⟨⟨"AB".toList, by decide, by decide, by decide⟩, by decide⟩

/-- C5 amended: `extract_size_from_sku` returns absent on a null or
non-string SKU; it returns the token following an underscore that runs
to the end of the SKU exactly when that token is one or more characters
of the class digits/S/M/X/L followed by a mandatory `X` and an optional
`L` (so plain `"M"`, `"S"`, `"L"` or a bare `"XL"` token never matches);
in particular `"ABC_XXL"` yields `"XXL"` and `"ABC123"` yields absent. -/
theorem c5_extract_size_characterization :
    extract_size_from_sku none = none ∧
    extract_size_from_sku (some "ABC_XXL") = some "XXL" ∧
    extract_size_from_sku (some "ABC123") = none ∧
    (∀ s t : String, extract_size_from_sku (some s) = some t →
      ∃ p, s.toList = p ++ '_' :: t.toList ∧ sizeTokenAmended t.toList) ∧
    (∀ s : String, (∀ p t, s.toList = p ++ '_' :: t → ¬ sizeTokenAmended t) →
      extract_size_from_sku (some s) = none) := by
  refine ⟨rfl, by decide, by decide, ?_, ?_⟩
  · intro s t h
    have h2 : (extractFromChars s.toList).map (fun tl => String.mk tl) = some t := h
    rcases he : extractFromChars s.toList with _ | ⟨tl⟩
    · rw [he] at h2
      exact absurd h2 (by simp)
    · rw [he] at h2
      have htl : t = String.mk tl := by simpa using h2.symm
      rcases extractFromChars_sound he with ⟨p, hp, hm⟩
      refine ⟨p, ?_, ?_⟩
      · rw [htl]
        exact hp
      · rw [htl]
        exact sizeTokenMatch_iff.mp hm
  · intro s h
    show (extractFromChars s.toList).map (fun tl => String.mk tl) = none
    rw [extractFromChars_complete]
    · rfl
    · intro p t hpt
      rcases hb : sizeTokenMatch t with _ | _
      · rfl
      · exact absurd (sizeTokenMatch_iff.mp hb) (h p t hpt)

/-- Witness for the amended C5: the characterization applied at the
concrete SKU `"AB_2XL"`, whose extracted token decomposes as required. -/
theorem c5_extract_size_witness :
    ∃ p, "AB_2XL".toList = p ++ '_' :: "2XL".toList ∧
      sizeTokenAmended "2XL".toList :=
  c5_extract_size_characterization.2.2.2.1 "AB_2XL" "2XL" (by decide)

/- ### Cheapest-platform machinery -/

theorem presentPairs_snd : ∀ (cols : List String) (ps : List (Option ℚ)),
    cols.length = ps.length →
    (presentPairs cols ps).map Prod.snd = presentVals ps := by
  intro cols
  induction cols with
  | nil =>
    intro ps h
    rcases ps with _ | ⟨p, pt⟩
    · rfl
    · exact absurd h (by simp)
  | cons c cs ih =>
    intro ps h
    rcases ps with _ | ⟨p, pt⟩
    · exact absurd h (by simp)
    · rcases p with _ | ⟨v⟩
      · show (presentPairs cs pt).map Prod.snd = presentVals pt
        exact ih pt (by simpa using h)
      · show (((c, v) :: presentPairs cs pt).map Prod.snd : List ℚ) = v :: presentVals pt
        rw [List.map_cons]
        rw [ih pt (by simpa using h)]

theorem pyMinFold_first_min (x : String × ℚ) (xs : List (String × ℚ)) :
    ∃ l1 l2, x :: xs = l1 ++ pyMinFold x xs :: l2 ∧
      (∀ y ∈ l1, (pyMinFold x xs).2 < y.2) ∧
      (∀ y ∈ l2, (pyMinFold x xs).2 ≤ y.2) := by
  induction xs generalizing x with
  | nil => exact ⟨[], [], rfl, by simp, by simp⟩
  | cons w ws ih =>
    have hstep : pyMinFold x (w :: ws) = pyMinFold (if w.2 < x.2 then w else x) ws := rfl
    by_cases hw : w.2 < x.2
    · rw [hstep, if_pos hw]
      rcases ih w with ⟨l1, l2, hdec, hl1, hl2⟩
      refine ⟨x :: l1, l2, by rw [List.cons_append, ← hdec], ?_, hl2⟩
      intro y hy
      rcases List.mem_cons.mp hy with rfl | hy2
      · have hle : (pyMinFold w ws).2 ≤ w.2 := by
          rcases l1 with _ | ⟨z, l1t⟩
          · have h2 := hdec
            rw [List.nil_append] at h2
            have h3 : w = pyMinFold w ws := ((List.cons.injEq _ _ _ _).mp h2).1
            exact le_of_eq (congrArg Prod.snd h3.symm)
          · have hwz : w = z := by
              have h2 := hdec
              rw [List.cons_append] at h2
              exact ((List.cons.injEq _ _ _ _).mp h2).1
            exact le_of_lt (hwz ▸ hl1 z (List.mem_cons_self _ _))
        exact lt_of_le_of_lt hle hw
      · exact hl1 y hy2
    · rw [hstep, if_neg hw]
      have hxw : x.2 ≤ w.2 := le_of_not_lt hw
      rcases ih x with ⟨l1, l2, hdec, hl1, hl2⟩
      rcases l1 with _ | ⟨z, l1t⟩
      · rw [List.nil_append] at hdec
        have hx : x = pyMinFold x ws := ((List.cons.injEq _ _ _ _).mp hdec).1
        have hws : ws = l2 := ((List.cons.injEq _ _ _ _).mp hdec).2
        refine ⟨[], w :: ws, ?_, by simp, ?_⟩
        · rw [List.nil_append, ← hx]
        · intro y hy
          rcases List.mem_cons.mp hy with rfl | hy2
          · exact le_trans (le_of_eq (congrArg Prod.snd hx.symm)) hxw
          · exact hl2 y (hws ▸ hy2)
      · rw [List.cons_append] at hdec
        have hxz : x = z := ((List.cons.injEq _ _ _ _).mp hdec).1
        have hws : ws = l1t ++ pyMinFold x ws :: l2 :=
          ((List.cons.injEq _ _ _ _).mp hdec).2
        refine ⟨x :: w :: l1t, l2, ?_, ?_, hl2⟩
        · rw [List.cons_append, List.cons_append, ← hws]
        · intro y hy
          rcases List.mem_cons.mp hy with rfl | hy2
          · exact hxz ▸ hl1 z (List.mem_cons_self _ _)
          · rcases List.mem_cons.mp hy2 with rfl | hy3
            · exact lt_of_lt_of_le (hxz ▸ hl1 z (List.mem_cons_self _ _)) hxw
            · exact hl1 y (List.mem_cons_of_mem _ hy3)

/-- C6 fails as stated on the platform-name normalization: the code
removes EVERY occurrence of the substring `" MRP"`, not only a trailing
one.  With the single platform column `"A MRP B MRP"`, the cleaned
record's `cheapest_platform` is `"a_b"`, while normalizing by stripping
the `" MRP"` suffix would give `"a_mrp_b"`. -/
theorem c6_norm_counterexample :
    ¬ (∀ r ∈ clean_transform doubleCol [doubleRow],
        r.cheapest_platform = some (normPlatformClaim "A MRP B MRP")) := by
  intro h
  have h2 := h (clean_transform doubleCol [doubleRow]).headI
    (of_decide_eq_true (by with_unfolding_all rfl))
  have h3 : (clean_transform doubleCol [doubleRow]).headI.cheapest_platform =
      some "a_b" := of_decide_eq_true (by with_unfolding_all rfl)
  rw [h3] at h2
  exact absurd h2 (by decide)

/-- C6 amended: for every cleaned record (given well-formed rows whose
price lists align with the platform columns), `cheapest_price` equals
`min_price`, and `cheapest_platform` is the normalized name — every
occurrence of the substring `" MRP"` removed, lowercased, spaces
replaced by underscores — of the first platform column attaining the
minimum present price: every present (column, price) pair before it is
strictly more expensive, every one after it is at least as expensive. -/
theorem c6_cheapest_platform : ∀ (cols : List String) (rows : List RawRecord),
    (∀ x ∈ rows, x.prices.length = cols.length) →
    ∀ r ∈ clean_transform cols rows,
    ∃ mn, r.min_price = some mn ∧ r.cheapest_price = some mn ∧
      ∃ l1 c l2, presentPairs cols r.prices = l1 ++ (c, mn) :: l2 ∧
        (∀ y ∈ l1, mn < y.2) ∧ (∀ y ∈ l2, mn ≤ y.2) ∧
        r.cheapest_platform = some (normPlatform c) := by
  intro cols rows hwf r h
  obtain ⟨hmin, _, _, _, hplat, hcp, hany, _, _, _, _, x, hx, hpr⟩ := clean_spec h
  have hlen : cols.length = r.prices.length := by
    rw [hpr, List.length_map]
    exact (hwf x hx).symm
  have hsnd := presentPairs_snd cols r.prices hlen
  have hne : presentVals r.prices ≠ [] := any_isSome_iff_presentVals.mp hany
  obtain ⟨mn, hmn⟩ := nanListMin_isSome hne
  obtain ⟨hmnmem, hmnle⟩ := nanListMin_spec hmn
  rcases hpp : presentPairs cols r.prices with _ | ⟨p0, pps⟩
  · rw [hpp] at hsnd
    exact absurd hsnd.symm (by simpa using hne)
  · have hcb : cheapestPair cols r.prices = some (pyMinFold p0 pps) := by
      unfold cheapestPair
      rw [hpp]
    rcases pyMinFold_first_min p0 pps with ⟨l1, l2, hdec, hl1, hl2⟩
    set b := pyMinFold p0 pps with hb
    have hbmem : b ∈ p0 :: pps := by
      rw [hdec]
      exact List.mem_append_right _ (List.mem_cons_self _ _)
    have hble : ∀ y ∈ p0 :: pps, b.2 ≤ y.2 := by
      intro y hy
      rw [hdec] at hy
      rcases List.mem_append.mp hy with hy1 | hy2
      · exact le_of_lt (hl1 y hy1)
      · rcases List.mem_cons.mp hy2 with rfl | hy3
        · exact le_refl _
        · exact hl2 y hy3
    have hbval : b.2 = mn := by
      apply le_antisymm
      · rw [← hsnd, hpp] at hmnmem
        rcases List.mem_map.mp hmnmem with ⟨y, hy, hysnd⟩
        exact hysnd ▸ hble y hy
      · apply hmnle
        rw [← hsnd, hpp]
        exact List.mem_map_of_mem _ hbmem
    refine ⟨mn, hmin.trans hmn, hcp.trans hmn, l1, b.1, l2, ?_, ?_, ?_, ?_⟩
    · rw [hdec]
      rw [show ((b.1, mn) : String × ℚ) = b by rw [← hbval]]
    · intro y hy
      exact hbval ▸ hl1 y hy
    · intro y hy
      exact hbval ▸ hl2 y hy
    · rw [hplat, hcb]
      rfl

/-- Witness for the amended C6 at the concrete example table. -/
theorem c6_cheapest_platform_witness :
    ∃ mn, (clean_transform wcols wrows).headI.min_price = some mn ∧
      (clean_transform wcols wrows).headI.cheapest_price = some mn ∧
      ∃ l1 c l2,
        presentPairs wcols (clean_transform wcols wrows).headI.prices =
          l1 ++ (c, mn) :: l2 ∧
        (∀ y ∈ l1, mn < y.2) ∧ (∀ y ∈ l2, mn ≤ y.2) ∧
        (clean_transform wcols wrows).headI.cheapest_platform =
          some (normPlatform c) :=
  c6_cheapest_platform wcols wrows (by decide)
    (clean_transform wcols wrows).headI
    (of_decide_eq_true (by with_unfolding_all rfl))

/- ### Overall statistics machinery -/

theorem presentVals_map {α : Type} (f : α → Option ℚ) (l : List α) :
    presentVals (l.map f) = l.filterMap f := by
  unfold presentVals
  rw [List.filterMap_map]
  rfl

theorem filterMap_length_all_some {α β : Type} (f : α → Option β) (l : List α)
    (h : ∀ a ∈ l, (f a).isSome = true) : (l.filterMap f).length = l.length := by
  induction l with
  | nil => rfl
  | cons a rest ih =>
    have ha := h a (List.mem_cons_self _ _)
    rcases hf : f a with _ | ⟨b⟩
    · rw [hf] at ha
      exact absurd ha (by simp)
    · simp [List.filterMap_cons, hf, ih fun y hy => h y (List.mem_cons_of_mem _ hy)]

/-- C7: in the overall price statistics, the reported minimum is the
least per-record `min_price`, the reported maximum is the greatest
per-record `max_price`, and the mean, median and squared standard
deviation are computed over the per-record `avg_price` values of all
cleaned records (each cleaned record contributes its `avg_price`). -/
theorem c7_overall_price_fields : ∀ (cols : List String) (rows : List RawRecord)
    (rs : List CleanedRecord), rs = clean_transform cols rows → rs ≠ [] →
    (∃ m, (compute_kpis cols rs).overall_stats.price_statistics.min_price = some m ∧
      (∃ r ∈ rs, r.min_price = some m) ∧
      (∀ r ∈ rs, ∀ v, r.min_price = some v → m ≤ v)) ∧
    (∃ m, (compute_kpis cols rs).overall_stats.price_statistics.max_price = some m ∧
      (∃ r ∈ rs, r.max_price = some m) ∧
      (∀ r ∈ rs, ∀ v, r.max_price = some v → v ≤ m)) ∧
    ((rs.filterMap fun r => r.avg_price).length = rs.length) ∧
    (∃ a, (compute_kpis cols rs).overall_stats.price_statistics.avg_price = some a ∧
      a * (rs.length : ℚ) = (rs.filterMap fun r => r.avg_price).sum ∧
      (∃ s : List ℚ, s.Perm (rs.filterMap fun r => r.avg_price) ∧
        s.Sorted (· ≤ ·) ∧
        (compute_kpis cols rs).overall_stats.price_statistics.median_price =
          (if s.length % 2 = 1 then s.get? (s.length / 2)
           else match s.get? (s.length / 2 - 1), s.get? (s.length / 2) with
             | some a2, some b2 => some ((a2 + b2) / 2)
             | _, _ => none)) ∧
      (2 ≤ rs.length →
        ∃ sd, (compute_kpis cols rs).overall_stats.price_statistics.std_price_sq = some sd ∧
          sd * ((rs.length - 1 : ℕ) : ℚ) =
            ((rs.filterMap fun r => r.avg_price).map fun v => (v - a) ^ 2).sum)) := by
  intro cols rows rs hrs hne
  have hper : ∀ r ∈ rs, (r.min_price).isSome = true ∧ (r.max_price).isSome = true ∧
      (r.avg_price).isSome = true := by
    intro r hr
    rw [hrs] at hr
    obtain ⟨hmin, hmax, havg, _, _, _, hany, _⟩ := clean_spec hr
    have hpne : presentVals r.prices ≠ [] := any_isSome_iff_presentVals.mp hany
    obtain ⟨m1, h1⟩ := nanListMin_isSome hpne
    obtain ⟨m2, h2⟩ := nanListMax_isSome hpne
    obtain ⟨m3, h3⟩ := nanListMean_isSome hpne
    exact ⟨by rw [hmin, h1]; rfl, by rw [hmax, h2]; rfl, by rw [havg, h3]; rfl⟩
  obtain ⟨r0, hr0⟩ : ∃ r0, r0 ∈ rs := by
    rcases rs with _ | ⟨r0, rest⟩
    · exact absurd rfl hne
    · exact ⟨r0, List.mem_cons_self _ _⟩
  refine ⟨?_, ?_, ?_, ?_⟩
  · -- minimum over per-record min_price
    have hv0 : ∃ v0, r0.min_price = some v0 := by
      rcases hx : r0.min_price with _ | ⟨v0⟩
      · have := (hper r0 hr0).1
        rw [hx] at this
        exact absurd this (by simp)
      · exact ⟨v0, rfl⟩
    obtain ⟨v0, hv0⟩ := hv0
    have hfne : rs.filterMap (fun r => r.min_price) ≠ [] :=
      List.ne_nil_of_mem (List.mem_filterMap.mpr ⟨r0, hr0, hv0⟩)
    have hpv : presentVals (rs.map fun r => r.min_price) =
        rs.filterMap fun r => r.min_price := presentVals_map _ _
    obtain ⟨m, hm⟩ := @nanListMin_isSome (rs.map fun r => r.min_price)
      (by rw [hpv]; exact hfne)
    obtain ⟨hmmem, hmle⟩ := nanListMin_spec hm
    rw [hpv] at hmmem hmle
    refine ⟨m, hm, List.mem_filterMap.mp hmmem, ?_⟩
    intro r hr v hv
    exact hmle v (List.mem_filterMap.mpr ⟨r, hr, hv⟩)
  · -- maximum over per-record max_price
    have hv0 : ∃ v0, r0.max_price = some v0 := by
      rcases hx : r0.max_price with _ | ⟨v0⟩
      · have := (hper r0 hr0).2.1
        rw [hx] at this
        exact absurd this (by simp)
      · exact ⟨v0, rfl⟩
    obtain ⟨v0, hv0⟩ := hv0
    have hfne : rs.filterMap (fun r => r.max_price) ≠ [] :=
      List.ne_nil_of_mem (List.mem_filterMap.mpr ⟨r0, hr0, hv0⟩)
    have hpv : presentVals (rs.map fun r => r.max_price) =
        rs.filterMap fun r => r.max_price := presentVals_map _ _
    obtain ⟨m, hm⟩ := @nanListMax_isSome (rs.map fun r => r.max_price)
      (by rw [hpv]; exact hfne)
    obtain ⟨hmmem, hmle⟩ := nanListMax_spec hm
    rw [hpv] at hmmem hmle
    refine ⟨m, hm, List.mem_filterMap.mp hmmem, ?_⟩
    intro r hr v hv
    exact hmle v (List.mem_filterMap.mpr ⟨r, hr, hv⟩)
  · exact filterMap_length_all_some _ _ fun r hr => (hper r hr).2.2
  · -- mean, median and squared std over avg_price
    have hlenf : (rs.filterMap fun r => r.avg_price).length = rs.length :=
      filterMap_length_all_some _ _ fun r hr => (hper r hr).2.2
    have hlenpos : 0 < rs.length := by
      rcases rs with _ | _
      · exact absurd rfl hne
      · simp
    have hlenne : ((rs.filterMap fun r => r.avg_price).length : ℚ) ≠ 0 := by
      rw [hlenf]
      exact_mod_cast hlenpos.ne'
    have hmean : (compute_kpis cols rs).overall_stats.price_statistics.avg_price =
        some ((rs.filterMap fun r => r.avg_price).sum /
          ((rs.filterMap fun r => r.avg_price).length : ℚ)) := by
      show listMean (rs.filterMap fun r => r.avg_price) = _
      unfold listMean
      rw [if_neg (by rw [hlenf]; exact hlenpos.ne')]
    refine ⟨_, hmean, ?_, ?_, ?_⟩
    · rw [← hlenf]
      field_simp
    · refine ⟨List.insertionSort (· ≤ ·) (rs.filterMap fun r => r.avg_price),
        List.perm_insertionSort _ _, List.sorted_insertionSort _ _, ?_⟩
      show pandasMedian (rs.filterMap fun r => r.avg_price) = _
      have hsl : ¬ (List.insertionSort (· ≤ ·) (rs.filterMap fun r => r.avg_price)).length = 0 := by
        rw [List.length_insertionSort, hlenf]
        exact hlenpos.ne'
      unfold pandasMedian
      rw [if_neg hsl]
    · intro h2
      have hnotlt : ¬ (rs.filterMap fun r => r.avg_price).length < 2 := by
        rw [hlenf]
        omega
      have hsub : ((rs.length - 1 : ℕ) : ℚ) ≠ 0 := by
        have : 1 ≤ rs.length - 1 := by omega
        have h3 : 0 < rs.length - 1 := this
        exact_mod_cast h3.ne'
      refine ⟨((rs.filterMap fun r => r.avg_price).map fun v =>
          (v - (rs.filterMap fun r => r.avg_price).sum /
            (((rs.filterMap fun r => r.avg_price).length : ℚ))) ^ 2).sum /
          ((((rs.filterMap fun r => r.avg_price).length - 1 : ℕ)) : ℚ), ?_, ?_⟩
      · show listStdSq (rs.filterMap fun r => r.avg_price) = _
        unfold listStdSq
        rw [if_neg hnotlt]
        rw [show listMean (rs.filterMap fun r => r.avg_price) = _ from hmean]
      · rw [hlenf]
        exact div_mul_cancel₀ _ hsub

/-- Witness for C7: the minimum clause at the concrete example table. -/
theorem c7_overall_price_fields_witness :
    ∃ m, (compute_kpis wcols (clean_transform wcols wrows)).overall_stats.price_statistics.min_price = some m ∧
      (∃ r ∈ clean_transform wcols wrows, r.min_price = some m) ∧
      (∀ r ∈ clean_transform wcols wrows, ∀ v, r.min_price = some v → m ≤ v) :=
  (c7_overall_price_fields wcols wrows (clean_transform wcols wrows) rfl
    (of_decide_eq_true (by with_unfolding_all rfl))).1

/- ### Top-variation machinery -/

theorem clean_price_range_isSome {cols : List String} {rows : List RawRecord}
    {r : CleanedRecord} (h : r ∈ clean_transform cols rows) :
    (r.price_range).isSome = true := by
  obtain ⟨_, _, _, hrange, _, _, hany, _⟩ := clean_spec h
  have hpne : presentVals r.prices ≠ [] := any_isSome_iff_presentVals.mp hany
  obtain ⟨m1, h1⟩ := nanListMin_isSome hpne
  obtain ⟨m2, h2⟩ := nanListMax_isSome hpne
  rw [hrange, h1, h2]
  rfl

/-- C8: `top_variation_products` holds exactly `min 20 n` entries, is the
projection (to the fixed field subset) of the `nlargest` selection, is
sorted by descending `price_range`, the selection keeps each chosen
record at its original position, orders it descending by `price_range`
with ties broken by ascending original position, and every record left
out has a `price_range` no larger than any selected one. -/
theorem c8_top_variation : ∀ (cols : List String) (rows : List RawRecord)
    (rs : List CleanedRecord), rs = clean_transform cols rows →
    ((compute_kpis cols rs).top_variation_products.length = min 20 rs.length) ∧
    ((compute_kpis cols rs).top_variation_products =
      (nlargestSel rs).map fun p => projTop p.2) ∧
    (∀ t ∈ (compute_kpis cols rs).top_variation_products,
      (t.price_range).isSome = true) ∧
    (compute_kpis cols rs).top_variation_products.Pairwise
      (fun a b => (b.price_range).getD 0 ≤ (a.price_range).getD 0) ∧
    (nlargestSel rs).Pairwise nlRel ∧
    (∀ p ∈ nlargestSel rs, rs.get? p.1 = some p.2) ∧
    (∀ q ∈ rs.enum, q ∉ nlargestSel rs →
      ∀ p ∈ nlargestSel rs, prKey q ≤ prKey p) := by
  intro cols rows rs hrs
  have hall : ∀ r ∈ rs, (r.price_range).isSome = true := by
    intro r hr
    exact clean_price_range_isSome (hrs ▸ hr)
  have hfe : (rs.enum.filter fun p => (p.2.price_range).isSome) = rs.enum := by
    apply List.filter_eq_self.mpr
    intro p hp
    have hmem : p.2 ∈ rs := by
      have hg := List.mem_enum_iff_get?.mp hp
      exact List.get?_mem hg
    exact hall p.2 hmem
  have hsorted : (List.insertionSort nlRel
      (rs.enum.filter fun p => (p.2.price_range).isSome)).Pairwise nlRel :=
    List.sorted_insertionSort nlRel _
  have hperm : (List.insertionSort nlRel
      (rs.enum.filter fun p => (p.2.price_range).isSome)).Perm rs.enum := by
    rw [hfe] at hsorted ⊢
    exact List.perm_insertionSort nlRel _
  have hselsub : ∀ p ∈ nlargestSel rs, p ∈ rs.enum := by
    intro p hp
    have hp2 : p ∈ List.insertionSort nlRel
        (rs.enum.filter fun p => (p.2.price_range).isSome) :=
      List.take_subset _ _ hp
    exact hperm.mem_iff.mp hp2
  have hselpw : (nlargestSel rs).Pairwise nlRel :=
    List.Pairwise.sublist (List.take_sublist _ _) (List.sorted_insertionSort nlRel _)
  refine ⟨?_, rfl, ?_, ?_, hselpw, ?_, ?_⟩
  · show ((nlargestSel rs).map fun p => projTop p.2).length = min 20 rs.length
    rw [List.length_map]
    unfold nlargestSel
    rw [List.length_take, List.length_insertionSort, hfe, List.enum_length]
  · intro t ht
    rcases List.mem_map.mp ht with ⟨p, hp, rfl⟩
    have : p.2 ∈ rs := List.get?_mem (List.mem_enum_iff_get?.mp (hselsub p hp))
    exact hall p.2 this
  · show ((nlargestSel rs).map fun p => projTop p.2).Pairwise
      (fun a b => (b.price_range).getD 0 ≤ (a.price_range).getD 0)
    rw [List.pairwise_map]
    apply hselpw.imp
    intro a b hab
    show (projTop b.2).price_range.getD 0 ≤ (projTop a.2).price_range.getD 0
    rcases hab with hab | ⟨hab, _⟩
    · exact le_of_lt hab
    · exact le_of_eq hab.symm
  · intro p hp
    exact List.mem_enum_iff_get?.mp (hselsub p hp)
  · intro q hq hqnot p hp
    have hq2 : q ∈ List.insertionSort nlRel
        (rs.enum.filter fun p => (p.2.price_range).isSome) := by
      rw [hperm.mem_iff]
      exact hq
    have hsplit := List.take_append_drop 20 (List.insertionSort nlRel
      (rs.enum.filter fun p => (p.2.price_range).isSome))
    have hqdrop : q ∈ (List.insertionSort nlRel
        (rs.enum.filter fun p => (p.2.price_range).isSome)).drop 20 := by
      rcases List.mem_append.mp (by rw [hsplit]; exact hq2) with hq3 | hq3
      · exact absurd hq3 hqnot
      · exact hq3
    have hpw : (List.insertionSort nlRel
        (rs.enum.filter fun p => (p.2.price_range).isSome)).Pairwise nlRel :=
      List.sorted_insertionSort nlRel _
    have hcross := (List.pairwise_append.mp (by rw [hsplit]; exact hpw)).2.2
    have hrel : nlRel p q := hcross p hp q hqdrop
    rcases hrel with hrel | ⟨hrel, _⟩
    · exact le_of_lt hrel
    · exact le_of_eq hrel.symm

/-- Witness for C8: the length clause at the concrete example table. -/
theorem c8_top_variation_witness :
    (compute_kpis wcols (clean_transform wcols wrows)).top_variation_products.length =
      min 20 (clean_transform wcols wrows).length :=
  (c8_top_variation wcols wrows (clean_transform wcols wrows) rfl).1

/- ### Group-count machinery -/

theorem sum_filter_cons_hit {α κ : Type} [DecidableEq κ] (f : α → Option κ)
    (a : α) (rest : List α) (k0 : κ) (hfa : f a = some k0) :
    ∀ keys : List κ, keys.Nodup → k0 ∈ keys →
    (keys.map fun k =>
      (List.filter (fun x => decide (f x = some k)) (a :: rest)).length).sum =
      (keys.map fun k =>
        (List.filter (fun x => decide (f x = some k)) rest).length).sum + 1 := by
  intro keys
  induction keys with
  | nil => intro _ hmem; exact absurd hmem (by simp)
  | cons k ks ih =>
    intro hnd hmem
    rw [List.nodup_cons] at hnd
    rw [List.map_cons, List.map_cons, List.sum_cons, List.sum_cons]
    rcases List.mem_cons.mp hmem with rfl | hmem2
    · have hhead : List.filter (fun x => decide (f x = some k0)) (a :: rest) =
          a :: List.filter (fun x => decide (f x = some k0)) rest :=
        List.filter_cons_of_pos (by simp [hfa])
      have htail : (ks.map fun k2 =>
          (List.filter (fun x => decide (f x = some k2)) (a :: rest)).length) =
          ks.map fun k2 =>
            (List.filter (fun x => decide (f x = some k2)) rest).length := by
        apply List.map_congr_left
        intro k2 hk2
        have hne : k0 ≠ k2 := fun h => hnd.1 (h ▸ hk2)
        rw [List.filter_cons_of_neg (by simp [hfa]; exact fun h => hne h)]
      rw [hhead, htail, List.length_cons]
      omega
    · have hne : f a ≠ some k := by
        rw [hfa]
        intro h
        rw [Option.some.injEq] at h
        exact hnd.1 (h ▸ hmem2)
      rw [List.filter_cons_of_neg (by simpa using hne)]
      rw [ih hnd.2 hmem2]
      omega

theorem sum_group_lengths {α κ : Type} [DecidableEq κ] (f : α → Option κ)
    (keys : List κ) (hnd : keys.Nodup) :
    ∀ l : List α, (∀ a ∈ l, ∀ k, f a = some k → k ∈ keys) →
    (keys.map fun k => (l.filter fun a => decide (f a = some k)).length).sum
      = (l.filter fun a => (f a).isSome).length := by
  intro l
  induction l with
  | nil =>
    intro _
    simp
  | cons a rest ih =>
    intro hcov
    have hrest := ih fun y hy => hcov y (List.mem_cons_of_mem _ hy)
    rcases hfa : f a with _ | ⟨k0⟩
    · have hmap : (keys.map fun k =>
          (List.filter (fun x => decide (f x = some k)) (a :: rest)).length) =
          keys.map fun k =>
            (List.filter (fun x => decide (f x = some k)) rest).length := by
        apply List.map_congr_left
        intro k _
        rw [List.filter_cons_of_neg (by simp [hfa])]
      rw [hmap, hrest, List.filter_cons_of_neg (by simp [hfa])]
    · have hk0 : k0 ∈ keys := hcov a (List.mem_cons_self _ _) k0 hfa
      rw [sum_filter_cons_hit f a rest k0 hfa keys hnd hk0, hrest,
        List.filter_cons_of_pos (by simp [hfa]), List.length_cons]

theorem filterMap_count {α κ : Type} [DecidableEq κ] (f : α → Option κ)
    (k : κ) : ∀ l : List α,
    ((l.filterMap f).filter fun x => decide (x = k)).length =
      (l.filter fun a => decide (f a = some k)).length := by
  intro l
  induction l with
  | nil => rfl
  | cons a rest ih =>
    rcases hfa : f a with _ | ⟨v⟩
    · rw [List.filterMap_cons, hfa,
        List.filter_cons_of_neg (by simp [hfa])]
      exact ih
    · rw [List.filterMap_cons, hfa]
      by_cases hv : v = k
      · rw [List.filter_cons_of_pos (by simp [hv]),
          List.filter_cons_of_pos (by simp [hfa, hv]), List.length_cons,
          List.length_cons, ih]
      · rw [List.filter_cons_of_neg (by simp [hv]),
          List.filter_cons_of_neg (by simp [hfa, hv])]
        exact ih

/-- C9: `size_kpi` has one row per distinct PRESENT size (records whose
extracted size is absent are silently excluded from the grouping), the
row keys are exactly the sizes occurring in the cleaned records, the
`product_count` values sum to the number of cleaned records with a
present size — at most `total_products` — and at the concrete example
table the sum is strictly below `total_products`, because one cleaned
record has no extractable size. -/
theorem c9_size_groups :
    (∀ (cols : List String) (rows : List RawRecord) (rs : List CleanedRecord),
      rs = clean_transform cols rows →
      ((compute_kpis cols rs).size_kpi.map fun g => g.size).Nodup ∧
      (∀ k, (k ∈ (compute_kpis cols rs).size_kpi.map fun g => g.size) ↔
        some k ∈ rs.map fun r => r.size) ∧
      (((compute_kpis cols rs).size_kpi.map fun g => g.product_count).sum =
        (rs.filter fun r => (r.size).isSome).length) ∧
      ((rs.filter fun r => (r.size).isSome).length ≤
        (compute_kpis cols rs).overall_stats.total_products)) ∧
    ((compute_kpis wcols (clean_transform wcols wrows)).size_kpi.map
        fun g => g.product_count).sum <
      (compute_kpis wcols (clean_transform wcols wrows)).overall_stats.total_products := by
  refine ⟨?_, of_decide_eq_true (by with_unfolding_all rfl)⟩
  intro cols rows rs hrs
  have hpermk : (sizeKeys rs).Perm (dedupByKey id (rs.filterMap fun r => r.size)) :=
    List.perm_insertionSort _ _
  have hmapsz : (compute_kpis cols rs).size_kpi.map (fun g => g.size) = sizeKeys rs := by
    show ((sizeKeys rs).map (sizeRowOf rs)).map (fun g => g.size) = sizeKeys rs
    rw [List.map_map]
    exact (List.map_congr_left fun k _ => rfl).trans (List.map_id _)
  refine ⟨?_, ?_, ?_, ?_⟩
  · rw [hmapsz]
    exact hpermk.nodup_iff.mpr (dedupByKey_id_nodup _)
  · intro k
    rw [hmapsz]
    rw [hpermk.mem_iff, mem_dedupByKey_id, List.mem_filterMap]
    constructor
    · rintro ⟨r, hr, hk⟩
      exact List.mem_map.mpr ⟨r, hr, hk⟩
    · intro h
      rcases List.mem_map.mp h with ⟨r, hr, hk⟩
      exact ⟨r, hr, hk⟩
  · have hsk : ∀ k, ((rs.filter fun r => decide (r.size = some k)).filter
        fun r => (r.sku).isSome) = rs.filter fun r => decide (r.size = some k) := by
      intro k
      apply List.filter_eq_self.mpr
      intro r hr
      rcases List.mem_filter.mp hr with ⟨hr1, hr2⟩
      have hsz : (r.size).isSome = true := by
        rw [decide_eq_true_iff] at hr2
        rw [hr2]
        rfl
      obtain ⟨_, _, _, _, _, _, _, _, hss, _⟩ := clean_spec (hrs ▸ hr1)
      exact hss hsz
    have hmapc : (compute_kpis cols rs).size_kpi.map (fun g => g.product_count) =
        (sizeKeys rs).map fun k =>
          (rs.filter fun r => decide (r.size = some k)).length := by
      show ((sizeKeys rs).map (sizeRowOf rs)).map (fun g => g.product_count) = _
      rw [List.map_map]
      apply List.map_congr_left
      intro k _
      show ((rs.filter fun r => decide (r.size = some k)).filter
        fun r => (r.sku).isSome).length = _
      rw [hsk k]
    rw [hmapc]
    rw [(hpermk.map fun k =>
      (rs.filter fun r => decide (r.size = some k)).length).sum_eq]
    apply sum_group_lengths
    · exact dedupByKey_id_nodup _
    · intro r hr k hk
      exact mem_dedupByKey_id.mpr (List.mem_filterMap.mpr ⟨r, hr, hk⟩)
  · exact List.length_filter_le _ _

/-- Witness for C9 at the concrete example table (the universal part
applied with its hypothesis discharged). -/
theorem c9_size_groups_witness :
    ((compute_kpis wcols (clean_transform wcols wrows)).size_kpi.map
        fun g => g.product_count).sum =
      ((clean_transform wcols wrows).filter fun r => (r.size).isSome).length :=
  (c9_size_groups.1 wcols wrows (clean_transform wcols wrows) rfl).2.2.1

/-- A cleaned record always carries a present cheapest platform, given
rows whose price lists align with the platform columns. -/
theorem clean_cheapest_isSome {cols : List String} {rows : List RawRecord}
    {r : CleanedRecord} (hwf : ∀ x ∈ rows, x.prices.length = cols.length)
    (h : r ∈ clean_transform cols rows) :
    (r.cheapest_platform).isSome = true := by
  obtain ⟨_, _, _, _, hplat, _, hany, _, _, _, _, x, hx, hpr⟩ := clean_spec h
  have hlen : cols.length = r.prices.length := by
    rw [hpr, List.length_map]
    exact (hwf x hx).symm
  have hsnd := presentPairs_snd cols r.prices hlen
  have hne : presentVals r.prices ≠ [] := any_isSome_iff_presentVals.mp hany
  rcases hpp : presentPairs cols r.prices with _ | ⟨p0, pps⟩
  · rw [hpp] at hsnd
    exact absurd hsnd.symm (by simpa using hne)
  · have hcb : cheapestPair cols r.prices = some (pyMinFold p0 pps) := by
      unfold cheapestPair
      rw [hpp]
    rw [hplat, hcb]
    rfl

/-- C10: every cleaned record has a present `cheapest_platform` (given
rows whose price lists align with the platform columns), and therefore
the frequency counts of `cheapest_platform_kpi` sum exactly to the
number of cleaned records. -/
theorem c10_cheapest_counts : ∀ (cols : List String) (rows : List RawRecord)
    (rs : List CleanedRecord), rs = clean_transform cols rows →
    (∀ x ∈ rows, x.prices.length = cols.length) →
    (∀ r ∈ rs, (r.cheapest_platform).isSome = true) ∧
    ((compute_kpis cols rs).cheapest_platform_kpi.map fun p => p.2).sum =
      rs.length := by
  intro cols rows rs hrs hwf
  have hper : ∀ r ∈ rs, (r.cheapest_platform).isSome = true :=
    fun r hr => clean_cheapest_isSome hwf (hrs ▸ hr)
  refine ⟨hper, ?_⟩
  show ((valueCounts (rs.filterMap fun r => r.cheapest_platform)).map
    fun p => p.2).sum = rs.length
  have hperm0 : (valueCounts (rs.filterMap fun r => r.cheapest_platform)).Perm
      ((dedupByKey id (rs.filterMap fun r => r.cheapest_platform)).map fun k =>
        (k, ((rs.filterMap fun r => r.cheapest_platform).filter
          fun x => decide (x = k)).length)) :=
    List.perm_insertionSort _ _
  rw [(hperm0.map fun p => p.2).sum_eq, List.map_map]
  have hbody : ((dedupByKey id (rs.filterMap fun r => r.cheapest_platform)).map
      ((fun p : String × ℕ => p.2) ∘ fun k =>
        (k, ((rs.filterMap fun r => r.cheapest_platform).filter
          fun x => decide (x = k)).length))) =
      (dedupByKey id (rs.filterMap fun r => r.cheapest_platform)).map fun k =>
        (rs.filter fun r => decide (r.cheapest_platform = some k)).length := by
    apply List.map_congr_left
    intro k _
    exact filterMap_count _ k rs
  rw [hbody]
  rw [sum_group_lengths (fun r => r.cheapest_platform) _ (dedupByKey_id_nodup _) rs
    (fun r hr k hk => mem_dedupByKey_id.mpr (List.mem_filterMap.mpr ⟨r, hr, hk⟩))]
  rw [List.filter_eq_self.mpr hper]

/-- Witness for C10 at the concrete example table. -/
theorem c10_cheapest_counts_witness :
    ((compute_kpis wcols (clean_transform wcols wrows)).cheapest_platform_kpi.map
      fun p => p.2).sum = (clean_transform wcols wrows).length :=
  (c10_cheapest_counts wcols wrows (clean_transform wcols wrows) rfl (by decide)).2

end Etl
